import Mathlib

/-!
Verification development for the `wikidata_pageviews` repository.

The Python sources are shallowly embedded: Python dicts (which preserve
insertion order) become association lists, generators become lists of the
yielded values, machine integers become `Nat`/`Int`, and code that can raise
an exception returns `Option`/`Except`.  Each definition carries a comment
pointing to the source function it embeds.
-/

set_option maxRecDepth 10000
set_option maxHeartbeats 1000000

/-! ## Embedding of `util.chunk_and_partition`

The Python function keeps a `defaultdict(list)` cache.  CPython dicts iterate
in insertion order, so the cache is modelled as an association list in
insertion order: appending to an existing bucket keeps its position, a fresh
key goes to the end, and `max(cache.items(), key=len)` picks the first
maximal bucket in insertion order.
-/

section PartitionedBatcher

variable {K V : Type} [DecidableEq K]

/-- Lookup in the cache (`partition in cache` / `cache[partition]`). -/
def cacheFind : List (K × List V) → K → Option (List V)
  | [], _ => none
  | (k', b) :: rest, k => if k' = k then some b else cacheFind rest k

/-- `cache[partition].append(item)` on a `defaultdict(list)`: append to the
bucket in place if the key is present, otherwise create a singleton bucket at
the end of the insertion order. -/
def cacheAppend : List (K × List V) → K → V → List (K × List V)
  | [], k, v => [(k, [v])]
  | (k', b) :: rest, k, v =>
    if k' = k then (k', b ++ [v]) :: rest else (k', b) :: cacheAppend rest k v

/-- `del cache[partition]`: drop the entry with the given key. -/
def cacheDel : List (K × List V) → K → List (K × List V)
  | [], _ => []
  | (k', b) :: rest, k => if k' = k then rest else (k', b) :: cacheDel rest k

/-- The running total `n_unprocessed` (total length of the lists in the
cache), computed from the cache itself. -/
def nUnprocessed (c : List (K × List V)) : ℕ := (c.map fun p => p.2.length).sum

/-- `pop_largest`: `max(cache.items(), key=len)` returns the first bucket of
maximal length in insertion order; the entry is removed and the rest of the
cache keeps its order.  On an empty cache Python's `max` raises `ValueError`,
modelled by `none` (never reached from `chunk_and_partition`). -/
def popLargest : List (K × List V) → Option ((K × List V) × List (K × List V))
  | [] => none
  | [e] => some (e, [])
  | e :: e2 :: rest =>
    match popLargest (e2 :: rest) with
    | some (e', rest') =>
      if e.2.length < e'.2.length then some (e', e :: rest') else some (e, e2 :: rest)
    | none => some (e, e2 :: rest)

/-- The `max_buckets` check performed before an item is inserted:
if the cache already holds `max_buckets` buckets and the incoming key is not
among them, the largest bucket is yielded first. -/
def capPre (mb : Option ℕ) (c : List (K × List V)) (p : K) :
    List (K × List V) × List (K × List V) :=
  match mb with
  | some b =>
    if c.length = b ∧ (cacheFind c p).isNone then
      match popLargest c with
      | some ec => ([ec.1], ec.2)
      | none => ([], c)
    else ([], c)
  | none => ([], c)

/-- The `max_unprocessed` check performed after an item is inserted (the
`elif` branch): when the buffered total reaches the bound, the largest
bucket is yielded. -/
def capMuCheck (mu : Option ℕ) (es : List (K × List V)) (c : List (K × List V)) :
    List (K × List V) × List (K × List V) :=
  match mu with
  | some m =>
    if nUnprocessed c = m then
      match popLargest c with
      | some ec => (es ++ [ec.1], ec.2)
      | none => (es, c)
    else (es, c)
  | none => (es, c)

/-- One iteration of the `for item in items` loop of `chunk_and_partition`:
the `max_buckets` check, the append, the `chunk_size` check and the
`max_unprocessed` check, in source order.  Returns the pairs yielded during
this iteration together with the new cache. -/
def capStep (key : V → K) (cs mu mb : Option ℕ) (c : List (K × List V)) (x : V) :
    List (K × List V) × List (K × List V) :=
  let p := key x
  let r1 := capPre mb c p
  let c2 := cacheAppend r1.2 p x
  match cs with
  | some n =>
    if ((cacheFind c2 p).getD []).length = n then
      (r1.1 ++ [(p, (cacheFind c2 p).getD [])], cacheDel c2 p)
    else capMuCheck mu r1.1 c2
  | none => capMuCheck mu r1.1 c2

/-- The whole `for` loop of `chunk_and_partition` starting from a given
cache: returns all yielded pairs and the final cache. -/
def capRun (key : V → K) (cs mu mb : Option ℕ) :
    List V → List (K × List V) → List (K × List V) × List (K × List V)
  | [], c => ([], c)
  | x :: xs, c =>
    let r1 := capStep key cs mu mb c x
    let r2 := capRun key cs mu mb xs r1.2
    (r1.1 ++ r2.1, r2.2)

/-- `check_optional_positive_integer`: each bound must be `None` or a
positive integer (`assert` at the top of `chunk_and_partition`). -/
def check_optional_positive : Option ℕ → Bool
  | none => true
  | some n => 0 < n

/-- `util.chunk_and_partition(items, key, chunk_size, max_unprocessed,
max_buckets)`: validates the bounds (a failed `assert` raises
`AssertionError`, modelled by `none`), streams the items through `capStep`,
and finally yields the remaining cache entries in iteration (= insertion)
order. -/
def chunk_and_partition (items : List V) (key : V → K)
    (chunk_size max_unprocessed max_buckets : Option ℕ) :
    Option (List (K × List V)) :=
  if check_optional_positive chunk_size && check_optional_positive max_unprocessed
      && check_optional_positive max_buckets then
    let r := capRun key chunk_size max_unprocessed max_buckets items []
    some (r.1 ++ r.2)
  else none

/-- The cache after the loop has consumed a prefix of the input. -/
def capCache (key : V → K) (cs mu mb : Option ℕ) (pre : List V) :
    List (K × List V) :=
  (capRun key cs mu mb pre []).2

end PartitionedBatcher

/-! ## Decimal digits and Python `int()` -/

/-- The decimal digit character for `n % 10`. -/
def dChar (n : ℕ) : Char :=
  match n % 10 with
  | 0 => '0' | 1 => '1' | 2 => '2' | 3 => '3' | 4 => '4'
  | 5 => '5' | 6 => '6' | 7 => '7' | 8 => '8' | _ => '9'

/-- Numeric value of a digit character. -/
def dVal (c : Char) : ℕ := c.toNat - 48

/-- Value of a string of decimal digits (most significant first). -/
def natOfDigits (l : List Char) : ℕ := l.foldl (fun a c => a * 10 + dVal c) 0

/-- Python `int(s)` on the strings this code feeds it: an optional sign
followed by at least one decimal digit.  `None` models the `ValueError`
raised otherwise.  (Python additionally strips surrounding whitespace and
allows `_` separators; the pipeline never feeds it such strings.) -/
def parse_int_py (s : String) : Option ℤ :=
  match s.data with
  | [] => none
  | '-' :: rest =>
    if rest ≠ [] ∧ rest.all (fun c => c.isDigit) then some (-(natOfDigits rest : ℤ)) else none
  | '+' :: rest =>
    if rest ≠ [] ∧ rest.all (fun c => c.isDigit) then some (natOfDigits rest : ℤ) else none
  | l => if l.all (fun c => c.isDigit) then some (natOfDigits l : ℤ) else none

/-! ## Embedding of `util.sum_values`

Python dicts are modelled as insertion-ordered association lists:
`results[k] = v` updates in place or inserts at the end. -/

/-- `k in results` / `results[k]` on a Python dict. -/
def alist_find {A B : Type} [DecidableEq A] : List (A × B) → A → Option B
  | [], _ => none
  | (a, b) :: rest, k => if a = k then some b else alist_find rest k

/-- `results[k] = v` on a Python dict. -/
def alist_set {A B : Type} [DecidableEq A] : List (A × B) → A → B → List (A × B)
  | [], k, v => [(k, v)]
  | (a, b) :: rest, k, v =>
    if a = k then (a, v) :: rest else (a, b) :: alist_set rest k v

/-- `util.sum_values(kvs)` exactly as written in the source: for a key `k`
already present it does `results[k] += v`, but for a first occurrence it does
`results[k] = k` — it stores the *key*, not the value.  (The call site
`process_file` feeds it `(qid, views)` pairs of integers.) -/
def sum_values (kvs : List (ℤ × ℤ)) : List (ℤ × ℤ) :=
  kvs.foldl
    (fun results kv =>
      match alist_find results kv.1 with
      | some cur => alist_set results kv.1 (cur + kv.2)
      | none => alist_set results kv.1 kv.1)
    []

/-! ## Embedding of `process_log.read_log` and `process_log.process_log_entries` -/

/-- `process_log.LogEntry`: one line of the pageviews log. -/
structure LogEntry where
  project : String
  title : String
  views : ℤ
deriving DecidableEq

/-- Python `line.split(' ')` on the character list: split on every single
space, keeping empty fields. -/
def splitOnSpace : List Char → List (List Char)
  | [] => [[]]
  | c :: rest =>
    match splitOnSpace rest with
    | [] => if c = ' ' then [[], []] else [[c]]
    | h :: t => if c = ' ' then [] :: h :: t else (c :: h) :: t

/-- The body of the `read_log` loop for one decoded line:
`project, title, views, _ = line.split(' ')` followed by `int(views)`.
`none` models the `ValueError` raised on a wrong field count or a
non-numeric count. -/
def parse_line (line : String) : Option LogEntry :=
  match splitOnSpace line.data with
  | [project, title, views, _] =>
    match parse_int_py (String.mk views) with
    | some v => some ⟨String.mk project, String.mk title, v⟩
    | none => none
  | _ => none

/-- `process_log.read_log`, applied to the decoded lines of the file.
The generator yields entries until a line fails to parse; the `ValueError`
is not caught, so the remaining lines are never read.  Returns the yielded
entries and whether an uncaught exception was raised. -/
def read_log_lines : List String → List LogEntry × Bool
  | [] => ([], false)
  | line :: rest =>
    match parse_line line with
    | some e =>
      let r := read_log_lines rest
      (e :: r.1, r.2)
    | none => ([], true)

/-- The wikidatawiki special case of `process_log_entries`:
`int(title[1:]) if title.startswith("Q") else None`; `int` raises
`ValueError` on a non-numeric remainder. -/
def wikidata_qid_of_title (title : String) : Except String (Option ℤ) :=
  if title.startsWith "Q" then
    match parse_int_py (title.drop 1) with
    | some n => Except.ok (some n)
    | none => Except.error "ValueError: invalid literal for int()"
  else Except.ok none

/-- `wikidata_qid_of_title` mapped over the titles of a bucket. -/
def qidsOfTitlesWikidata : List String → Except String (List (Option ℤ))
  | [] => Except.ok []
  | t :: rest => do
    let q ← wikidata_qid_of_title t
    let qs ← qidsOfTitlesWikidata rest
    Except.ok (q :: qs)

/-- `for le, qid in zip(log_entries, qids)`: emit `(qid, le.views)` for
resolved entries, and the summed views of unresolved entries (which the
source adds to `unconverted_views`).  Python's `zip` truncates to the
shorter sequence, as does `List.zip`. -/
def emitPairs (les : List LogEntry) (qids : List (Option ℤ)) :
    List (ℤ × ℤ) × ℤ :=
  let z := les.zip qids
  (z.filterMap (fun p => p.2.map fun q => (q, p.1.views)),
   ((z.filter fun p => p.2.isNone).map fun p => p.1.views).sum)

/-- One `(dbname, log_entries)` bucket of `process_log_entries`: a `None`
dbname folds all views into the unconverted total; `wikidatawiki` uses the
title special case; any other database defers to `convert_titles_to_qids`,
an external collaborator modelled by the `resolve` parameter. -/
def pleBucket (resolve : String → List String → List (Option ℤ))
    (dbname : Option String) (les : List LogEntry) :
    Except String (List (ℤ × ℤ) × ℤ) :=
  match dbname with
  | none => Except.ok ([], (les.map fun le => le.views).sum)
  | some db =>
    if db = "wikidatawiki" then do
      let qids ← qidsOfTitlesWikidata (les.map fun le => le.title)
      Except.ok (emitPairs les qids)
    else
      Except.ok (emitPairs les (resolve db (les.map fun le => le.title)))

/-- The bucket loop of `process_log_entries`, accumulating the emitted
`(qid, views)` pairs in order and the running unconverted-views total. -/
def pleGo (resolve : String → List String → List (Option ℤ)) :
    List (Option String × List LogEntry) → Except String (List (ℤ × ℤ) × ℤ)
  | [] => Except.ok ([], 0)
  | (db, les) :: rest => do
    let b ← pleBucket resolve db les
    let r ← pleGo resolve rest
    Except.ok (b.1 ++ r.1, b.2 + r.2)

/-- `process_log.process_log_entries(log_entries)`: streams the entries
through `chunk_and_partition(key=le.dbname(), max_buckets=3,
chunk_size=10000)`, resolves each bucket, and finally yields
`(0, unconverted_views)` under the reserved sentinel id.  The two external
collaborators — `database_from_project_name` and `convert_titles_to_qids` —
are parameters. -/
def process_log_entries (dbnameOf : String → Option String)
    (resolve : String → List String → List (Option ℤ))
    (log_entries : List LogEntry) : Except String (List (ℤ × ℤ)) :=
  match chunk_and_partition log_entries (fun le => dbnameOf le.project)
      (some 10000) none (some 3) with
  | none => Except.error "AssertionError"
  | some buckets => do
    let r ← pleGo resolve buckets
    Except.ok (r.1 ++ [(0, r.2)])

/-! ## A model of Python `datetime` at hour granularity

`dump.parse_duration` uses `datetime.datetime.strptime`, `timedelta` and
`strftime`.  The proleptic Gregorian calendar of the `datetime` module is
modelled here: days are numbered from 0 = 0001-01-01 (datetime's `MINYEAR`
is 1, `MAXYEAR` is 9999), and an hour instant is `24 * dayNumber + hour`. -/

/-- Gregorian leap year. -/
def isLeapYear (y : ℕ) : Prop := (y % 4 = 0 ∧ ¬ y % 100 = 0) ∨ y % 400 = 0

instance : DecidablePred isLeapYear := fun y => by
  unfold isLeapYear; infer_instance

/-- Days in a Gregorian year. -/
def daysInYear (y : ℕ) : ℕ := if isLeapYear y then 366 else 365

/-- Month lengths of a Gregorian year. -/
def monthLengths (y : ℕ) : List ℕ :=
  [31, if isLeapYear y then 29 else 28, 31, 30, 31, 30, 31, 31, 30, 31, 30, 31]

/-- Days in month `m` (1-based) of year `y`. -/
def daysInMonth (y m : ℕ) : ℕ := (monthLengths y).getD (m - 1) 0

/-- Days in the complete years before year `y` (closed form). -/
def daysBeforeYear (y : ℕ) : ℕ :=
  365 * (y - 1) + (y - 1) / 4 - (y - 1) / 100 + (y - 1) / 400

/-- Days in the complete months of year `y` before month `m` (1-based). -/
def daysBeforeMonth (y m : ℕ) : ℕ := ((monthLengths y).take (m - 1)).sum

/-- Day number of a calendar date (0 = 0001-01-01). -/
def toDayNumber (y m d : ℕ) : ℕ := daysBeforeYear y + daysBeforeMonth y m + (d - 1)

/-- Find the month (1-based from `m`) and the day offset within it for a
day-of-year offset `r`, walking the month-length list. -/
def monthFrom : List ℕ → ℕ → ℕ → ℕ × ℕ
  | [], m, r => (m, r)
  | len :: rest, m, r => if r < len then (m, r) else monthFrom rest (m + 1) (r - len)

/-- Find the year (starting at `y`) and day-of-year for day offset `z`.
`fuel` bounds the recursion; any `fuel ≥ z` is enough. -/
def yearFrom : ℕ → ℕ → ℕ → ℕ × ℕ
  | 0, y, z => (y, z)
  | fuel + 1, y, z =>
    if z < daysInYear y then (y, z) else yearFrom fuel (y + 1) (z - daysInYear y)

/-- Calendar date `(year, month, day)` of a day number. -/
def fromDayNumber (z : ℕ) : ℕ × ℕ × ℕ :=
  let yz := yearFrom (z + 1) 1 z
  let md := monthFrom (monthLengths yz.1) 1 yz.2
  (yz.1, md.1, md.2 + 1)

/-- A `datetime.datetime` value (microseconds are never used here). -/
structure PyDateTime where
  year : ℕ
  month : ℕ
  day : ℕ
  hour : ℕ
  minute : ℕ
  second : ℕ
deriving DecidableEq

/-- The validity conditions `datetime.datetime` enforces on construction. -/
def validDT (t : PyDateTime) : Prop :=
  1 ≤ t.year ∧ t.year ≤ 9999 ∧ 1 ≤ t.month ∧ t.month ≤ 12 ∧
    1 ≤ t.day ∧ t.day ≤ daysInMonth t.year t.month ∧
    t.hour < 24 ∧ t.minute < 60 ∧ t.second < 60

instance : DecidablePred validDT := fun t => by
  unfold validDT; infer_instance

/-- The hour instant of a datetime (hours since 0001-01-01 00:xx). -/
def dtHours (t : PyDateTime) : ℕ := 24 * toDayNumber t.year t.month t.day + t.hour

/-- One past the last representable hour instant (year 9999 inclusive). -/
def maxPyHours : ℕ := 24 * daysBeforeYear 10000

/-- Shift a datetime to hour instant `n`, keeping minute and second
(`timedelta(hours=...)` does not touch them for whole-hour shifts). -/
def dtAtHours (t : PyDateTime) (n : ℕ) : PyDateTime :=
  let ymd := fromDayNumber (n / 24)
  ⟨ymd.1, ymd.2.1, ymd.2.2, n % 24, t.minute, t.second⟩

/-! ## Parsing and formatting of database-form timestamps -/

/-- Two-digit zero-padded field (`%m`, `%d`, `%H`, `%M`, `%S`). -/
def pad2 (n : ℕ) : List Char := [dChar (n / 10), dChar n]

/-- Four-digit year field (`%Y`; years in `[1000, 9999]` here). -/
def pad4 (n : ℕ) : List Char :=
  [dChar (n / 1000), dChar (n / 100), dChar (n / 10), dChar n]

/-- `dump.datetime_as_mysql(dt)`: `dt.strftime("%Y-%m-%d %H:%M:%S")`. -/
def datetime_as_mysql (t : PyDateTime) : String :=
  String.mk (pad4 t.year ++ '-' :: pad2 t.month ++ '-' :: pad2 t.day ++
    ' ' :: pad2 t.hour ++ ':' :: pad2 t.minute ++ ':' :: pad2 t.second)

/-- `datetime.datetime.strptime(s, "%Y-%m-%d %H:%M:%S")` on the zero-padded
strings this code produces and stores: a fixed 19-character shape, with the
range checks the `datetime` constructor performs.  `none` models the
`ValueError` on anything else. -/
def parseDT (l : List Char) : Option PyDateTime :=
  match l with
  | [y1, y2, y3, y4, s1, m1, m2, s2, d1, d2, s3, h1, h2, s4, n1, n2, s5, c1, c2] =>
    if y1.isDigit ∧ y2.isDigit ∧ y3.isDigit ∧ y4.isDigit ∧
        m1.isDigit ∧ m2.isDigit ∧ d1.isDigit ∧ d2.isDigit ∧
        h1.isDigit ∧ h2.isDigit ∧ n1.isDigit ∧ n2.isDigit ∧
        c1.isDigit ∧ c2.isDigit ∧
        s1 = '-' ∧ s2 = '-' ∧ s3 = ' ' ∧ s4 = ':' ∧ s5 = ':' then
      let t : PyDateTime :=
        ⟨((dVal y1 * 10 + dVal y2) * 10 + dVal y3) * 10 + dVal y4,
         dVal m1 * 10 + dVal m2, dVal d1 * 10 + dVal d2,
         dVal h1 * 10 + dVal h2, dVal n1 * 10 + dVal n2, dVal c1 * 10 + dVal c2⟩
      if validDT t then some t else none
    else none
  | _ => none

/-- `strptime` of a database-form hour string. -/
def parse_db_hour (s : String) : Option PyDateTime := parseDT s.data

/-- The hour instant named by a database-form string, when it parses. -/
def hoursOfStr (s : String) : Option ℕ := (parse_db_hour s).map dtHours

/-! ## Embedding of `dump.parse_hour` and `dump.parse_duration` -/

/-- `HOUR_RE = ^(\d\d\d\d-\d\d-\d\d)T(\d\d)$` as a predicate on the
character list.  (Python's `$` would also accept one trailing newline;
no claim exercises that corner.) -/
def hour_re_match : List Char → Bool
  | [y1, y2, y3, y4, s1, m1, m2, s2, d1, d2, t, h1, h2] =>
    y1.isDigit && y2.isDigit && y3.isDigit && y4.isDigit &&
      m1.isDigit && m2.isDigit && d1.isDigit && d2.isDigit &&
      h1.isDigit && h2.isDigit && s1 = '-' && s2 = '-' && t = 'T'
  | _ => false

/-- `dump.parse_hour(hour)` exactly as written: on a regex match it returns
the f-string `f"$1 $2:00:00"`, which contains no placeholders — the *literal*
text `$1 $2:00:00` — and on no match it logs and returns `None`. -/
def parse_hour (hour : String) : Option String :=
  if hour_re_match hour.data then some "$1 $2:00:00" else none

/-- `DURATION_RE = ^(\d+)([hdwm]?)$`: at least one digit then an optional
unit letter.  Returns the digit characters and the optional unit.
(The source compiles the regex with `re.IGNORECASE`, but `DURATION_UNITS`
only has lowercase keys, so an uppercase unit raises `KeyError`; no claim
exercises that, and the model accepts lowercase units only.) -/
def duration_match (l : List Char) : Option (List Char × Option Char) :=
  let digits := l.takeWhile fun c => c.isDigit
  let rest := l.dropWhile fun c => c.isDigit
  if digits = [] then none
  else if rest = [] then some (digits, none)
  else if rest = ['h'] ∨ rest = ['d'] ∨ rest = ['w'] ∨ rest = ['m'] then
    some (digits, rest.head?)
  else none

/-- `DURATION_UNITS`: hours per unit. -/
def unitMult : Option Char → ℕ
  | none => 1
  | some 'h' => 1
  | some 'd' => 24
  | some 'w' => 168
  | some 'm' => 720
  | some _ => 0

/-- `dump.parse_duration(duration, hour)`: on a regex match, computes
`adjusted_value = value * multiplier - 1` (exact for every in-range input),
shifts the parsed anchor back by that many hours and formats the result.
`none` models the `ValueError` of a failed match or unparsable anchor and
the `OverflowError` of a result outside `datetime`'s year range. -/
def parse_duration (duration hour : String) : Option String :=
  match duration_match duration.data with
  | some du =>
    let adjusted : ℤ := (natOfDigits du.1 : ℤ) * unitMult du.2 - 1
    match parse_db_hour hour with
    | some t =>
      let newTotal : ℤ := (dtHours t : ℤ) - adjusted
      if 0 ≤ newTotal ∧ newTotal < (maxPyHours : ℤ) then
        some (datetime_as_mysql (dtAtHours t newTotal.toNat))
      else none
    | none => none
  | none => none

/-! ## Embedding of `dump.aggregate_by_qid`, the `logprobs` mode and
`dump.write_combination_file` -/

/-- `dump.aggregate_by_qid`: the rows `(qid, SUM(views))` returned by the
storage collaborator are a parameter; the generator skips the reserved
sentinel `qid == 0` ("we store unaligned views against the magic value 0")
and renders every other id as `"Q" + str(qid)`. -/
def aggregate_by_qid (rows : List (ℕ × ℕ)) : List (String × ℕ) :=
  rows.filterMap fun r =>
    if r.1 ≠ 0 then some ("Q" ++ toString r.1, r.2) else none

/-- The Laplace denominator of `get_dump`'s `logprobs` mode:
`log_denominator = math.log(total_views + max_qid)`. -/
noncomputable def log_denominator (total_views max_qid : ℝ) : ℝ :=
  Real.log (total_views + max_qid)

/-- The per-id value of the `logprobs` dict comprehension:
`math.log(views + 1) - log_denominator`. -/
noncomputable def logprob_of_views (total_views max_qid : ℝ) (views : ℕ) : ℝ :=
  Real.log ((views : ℝ) + 1) - log_denominator total_views max_qid

/-- `result['logprobs']` of `get_dump(mode='logprobs')`, as a function of the
aggregated `(qid, views)` data and the summary statistics. -/
noncomputable def logprobs_result (data : List (String × ℕ))
    (total_views max_qid : ℝ) : List (String × ℝ) :=
  data.map fun p => (p.1, logprob_of_views total_views max_qid p.2)

/-- `result['default_logprob'] = math.log(1) - log_denominator`. -/
noncomputable def default_logprob (total_views max_qid : ℝ) : ℝ :=
  Real.log 1 - log_denominator total_views max_qid

/-- The `views`-mode result object of `get_dump` for one window, as far as
`write_combination_file` consumes it.  `total_views` is a count in views
mode (`float(SUM(views))` of integer rows). -/
structure DumpViews where
  start : String
  stop : String
  hours : List String
  max_qid : ℕ
  total_views : ℕ
  views : List (String × ℕ)
deriving DecidableEq

/-- `part.keys()` for the result dict built by `get_dump` in views mode: the
keys of the Python dict in insertion order —
`dict(start=…, end=…, hours=…, max_qid=…, total_views=…)` followed by
`result['views'] = …`.  These are the *metadata* keys, not the qids. -/
def result_keys (_ : DumpViews) : List String :=
  ["start", "end", "hours", "max_qid", "total_views", "views"]

/-- `set.intersection(part.keys() for part in parts)` as written in
`write_combination_file`: the *unbound* method `set.intersection` is called
with a generator as its `self` argument, which raises `TypeError` before any
element is consumed. -/
def py_set_intersection_unbound (_ : List (List String)) :
    Except String (List String) :=
  Except.error
    "TypeError: descriptor 'intersection' for 'set' objects does not apply to a 'generator' object"

/-- The per-id merge of `write_combination_file`:
`views = {qid: [part['views'].get(qid, 0) for part in parts] for qid in qids}`. -/
def merge_views (parts : List DumpViews) (qids : List String) :
    List (String × List ℕ) :=
  qids.map fun q => (q, parts.map fun p => (alist_find p.views q).getD 0)

/-- The merged views mapping computed by `dump.write_combination_file` from
the per-duration dumps: `qids = set.intersection(part.keys() for part in
parts)` followed by the merge comprehension.  The first statement raises
`TypeError`, so the merge is never reached and no output is written. -/
def write_combination_views (parts : List DumpViews) :
    Except String (List (String × List ℕ)) := do
  let qids ← py_set_intersection_unbound (parts.map result_keys)
  Except.ok (merge_views parts qids)


/-! ## Concrete collaborator instances and invariant predicates -/

/-- A concrete `database_from_project_name` for evaluating the pipeline:
the project `en.z` maps to database `enwiki`, everything else is unknown. -/
def c1_dbnameOf : String → Option String :=
  fun p => if p = "en.z" then some "enwiki" else none

/-- A concrete `convert_titles_to_qids` for evaluating the pipeline:
the title `Cat` resolves to QID 100, everything else is unresolved. -/
def c1_resolve : String → List String → List (Option ℤ) :=
  fun _ titles => titles.map fun t => if t = "Cat" then some 100 else none

/-- The decoded lines of a log file whose second line is malformed
(two whitespace-separated fields instead of four). -/
def c9_lines : List String := ["en.z Cat 5 0", "badline", "en.z Dog 3 0"]

/-- Every bucket of the cache is tagged with the key its items map to. -/
def WellKeyed {K V : Type} (key : V → K) (c : List (K × List V)) : Prop :=
  ∀ p ∈ c, ∀ x ∈ p.2, key x = p.1

/-- The multiset of all items buffered in a cache (or emitted in a list of
`(key, bucket)` pairs). -/
def cacheMass {K V : Type} (c : List (K × List V)) : Multiset V :=
  (c.map fun p => (p.2 : Multiset V)).sum

/-- The invariant `chunk_and_partition` maintains on its cache between loop
iterations: no empty buckets, every bucket strictly below `chunk_size`,
at most `max_buckets` buckets, and strictly fewer than `max_unprocessed`
buffered items. -/
def CapInv {K V : Type} (cs mu mb : Option ℕ) (c : List (K × List V)) : Prop :=
  (∀ p ∈ c, p.2 ≠ []) ∧
  (∀ n, cs = some n → ∀ p ∈ c, p.2.length < n) ∧
  (∀ b, mb = some b → c.length ≤ b) ∧
  (∀ m, mu = some m → nUnprocessed c < m)

/-- The grouping invariant of the unbounded case: after a prefix `processed`
has been consumed with no bounds set, the cache holds one bucket per distinct
key, in first-seen order, containing exactly the matching items in input
order. -/
def PartInv {K V : Type} [DecidableEq K] (key : V → K) (processed : List V)
    (c : List (K × List V)) : Prop :=
  (c.map Prod.fst).Nodup ∧
  (∀ q ∈ c, q.2 = processed.filter (fun y => decide (key y = q.1))) ∧
  (∀ y ∈ processed, key y ∈ c.map Prod.fst)

/-! ## C1: conservation through the aggregation pipeline -/

/-- C1: the claimed invariant `sum(AggregationMap.values()) == sum(viewCount
over all input LogEntry)` fails on the code.  For the single input entry
`("en.z", "Cat", 5)` (resolved to QID 100) the pipeline emits
`[(100, 5), (0, 0)]`, but `sum_values` initialises a fresh key with the
*key* instead of the value (`results[k] = k`), so the aggregation map is
`{100: 100, 0: 0}` with value sum 100 ≠ 5: an observation is both lost and
over-counted. -/
theorem sum_values_breaks_conservation :
    process_log_entries c1_dbnameOf c1_resolve [⟨"en.z", "Cat", 5⟩]
        = Except.ok [(100, 5), (0, 0)] ∧
    sum_values [(100, 5), (0, 0)] = [(100, 100), (0, 0)] ∧
    (([(100, 100), (0, 0)] : List (ℤ × ℤ)).map Prod.snd).sum
      ≠ (([⟨"en.z", "Cat", 5⟩] : List LogEntry).map LogEntry.views).sum := by
  refine ⟨rfl, by decide, by decide⟩

/-! ## C3: `parse_hour` -/

/-- C3: for a string matching the absolute-hour grammar, `parse_hour` does
*not* return the corresponding `"YYYY-MM-DD HH:00:00"` string: the body
`return f"$1 $2:00:00"` is an f-string without placeholders, so every match
yields the literal text `$1 $2:00:00`.  Non-matching strings do return
`None` as claimed. -/
theorem parse_hour_returns_placeholder_literal :
    parse_hour "2018-10-10T01" = some "$1 $2:00:00" ∧
    parse_hour "2018-10-10T01" ≠ some "2018-10-10 01:00:00" ∧
    parse_hour "2018-10-10 01" = none ∧
    parse_hour "18-10-10T01" = none := by
  refine ⟨by decide, by decide, by decide, by decide⟩

/-! ## C6: `parse_duration("2d", "2020-01-10 05:00:00")` -/

/-- C6 (counterexample): the claimed start hour `2020-01-09 06:00:00` is not
what `parse_duration` returns for `"2d"` anchored at
`2020-01-10 05:00:00` — a closed 48-hour interval must start 47 hours
before the anchor, which is on January 8, not January 9. -/
theorem parse_duration_2d_not_jan9 :
    parse_duration "2d" "2020-01-10 05:00:00" ≠ some "2020-01-09 06:00:00" := by
  decide

/-- C6 (amended): `parse_duration("2d", "2020-01-10 05:00:00")` returns
`2020-01-08 06:00:00`, so that the closed interval
`[2020-01-08 06:00:00, 2020-01-10 05:00:00]` spans exactly 48 hour
instants. -/
theorem parse_duration_2d_value :
    parse_duration "2d" "2020-01-10 05:00:00" = some "2020-01-08 06:00:00" := by
  decide

/-! ## C4: `write_combination_file` -/

/-- C4: `write_combination_file` never produces the claimed merged mapping.
Its `qids = set.intersection(part.keys() for part in parts)` calls the
unbound `set.intersection` on a generator, raising `TypeError`; even the
expression it attempts intersects the *metadata* keys of the result dicts,
not the per-window view ids.  The claimed union-merge for two windows with
views `{Q1: 1}` and `{Q2: 2}` would be `{Q1: [1, 0], Q2: [0, 2]}` (shown by
`merge_views` on the union), but the function errors out instead. -/
theorem write_combination_views_raises_type_error :
    write_combination_views
        [⟨"2020-01-09 06:00:00", "2020-01-10 05:00:00", [], 5, 10, [("Q1", 1)]⟩,
         ⟨"2020-01-03 06:00:00", "2020-01-10 05:00:00", [], 5, 20, [("Q2", 2)]⟩]
      = Except.error
          "TypeError: descriptor 'intersection' for 'set' objects does not apply to a 'generator' object" ∧
    merge_views
        [⟨"2020-01-09 06:00:00", "2020-01-10 05:00:00", [], 5, 10, [("Q1", 1)]⟩,
         ⟨"2020-01-03 06:00:00", "2020-01-10 05:00:00", [], 5, 20, [("Q2", 2)]⟩]
        ["Q1", "Q2"]
      = [("Q1", [1, 0]), ("Q2", [0, 2])] := by
  refine ⟨rfl, by decide⟩

/-! ## C9: `read_log` on malformed lines -/

/-- C9 (counterexample): with a malformed second line, the well-formed third
line is *not* yielded — the claim that a malformed line is dropped and the
remaining entries are still produced fails; instead the uncaught
`ValueError` ends the generator. -/
theorem read_log_does_not_continue_after_malformed :
    ((⟨"en.z", "Dog", 3⟩ : LogEntry) ∉ (read_log_lines c9_lines).1) ∧
    (read_log_lines c9_lines).2 = true := by
  refine ⟨by decide, by decide⟩

/-- C9 (amended): `read_log` has no error handling: the entries before the
first malformed line are yielded, and the malformed line raises an uncaught
`ValueError` that aborts the read — nothing is logged and the rest of the
file is never processed. -/
theorem read_log_aborts_at_malformed_line
    (pre : List String) (bad : String) (post : List String)
    (hpre : ∀ l ∈ pre, (parse_line l).isSome)
    (hbad : parse_line bad = none) :
    read_log_lines (pre ++ bad :: post) = (pre.filterMap parse_line, true) := by
  induction pre with
  | nil => simp [read_log_lines, hbad]
  | cons l rest ih =>
    have hl := hpre l (by simp)
    rcases Option.isSome_iff_exists.mp hl with ⟨e, he⟩
    have hrest : ∀ l' ∈ rest, (parse_line l').isSome := fun l' hl' =>
      hpre l' (by simp [hl'])
    simp [read_log_lines, he, ih hrest, List.filterMap_cons]

/-- Witness for `read_log_aborts_at_malformed_line` at the concrete log of
`c9_lines`. -/
theorem read_log_aborts_at_malformed_line_witness :
    read_log_lines c9_lines = ([⟨"en.z", "Cat", 5⟩], true) := by
  have h := read_log_aborts_at_malformed_line ["en.z Cat 5 0"] "badline"
    ["en.z Dog 3 0"] (by decide) (by decide)
  have hc : c9_lines = ["en.z Cat 5 0"] ++ "badline" :: ["en.z Dog 3 0"] := rfl
  rw [hc, h]; decide

/-! ## C10: `aggregate_by_qid` excludes the sentinel id 0 -/

/-- C10: every pair yielded by `aggregate_by_qid` comes from a row with
`qid ≠ 0` rendered as `"Q" + str(qid)`; rows stored under the reserved
sentinel 0 contribute nothing (the output is unchanged if they are removed);
the unresolved mass is exactly the gap between the reported per-id sum and
the total over all rows, so the reported sum can be strictly smaller than
the dump's `total_views`. -/
theorem aggregate_by_qid_excludes_sentinel :
    (∀ rows : List (ℕ × ℕ), ∀ p ∈ aggregate_by_qid rows,
        ∃ r ∈ rows, r.1 ≠ 0 ∧ p = ("Q" ++ toString r.1, r.2)) ∧
    (∀ rows : List (ℕ × ℕ),
        aggregate_by_qid rows = aggregate_by_qid (rows.filter fun r => r.1 ≠ 0)) ∧
    (∀ rows : List (ℕ × ℕ),
        ((aggregate_by_qid rows).map Prod.snd).sum
            + ((rows.filter fun r => r.1 = 0).map Prod.snd).sum
          = (rows.map Prod.snd).sum) ∧
    (∃ rows : List (ℕ × ℕ),
        ((aggregate_by_qid rows).map Prod.snd).sum < (rows.map Prod.snd).sum) := by
  refine ⟨?_, ?_, ?_, ⟨[(0, 5)], by decide⟩⟩
  · intro rows p hp
    rcases List.mem_filterMap.mp hp with ⟨r, hr, hf⟩
    by_cases h0 : r.1 ≠ 0
    · exact ⟨r, hr, h0, by simpa [h0] using hf.symm⟩
    · simp [h0] at hf
  · intro rows
    induction rows with
    | nil => rfl
    | cons r rest ih =>
      by_cases h0 : r.1 = 0 <;>
        simp [aggregate_by_qid, List.filter_cons, h0, List.filterMap_cons] at ih ⊢ <;>
        simpa [aggregate_by_qid] using ih
  · intro rows
    induction rows with
    | nil => rfl
    | cons r rest ih =>
      by_cases h0 : r.1 = 0 <;>
        simp [aggregate_by_qid, List.filter_cons, List.filterMap_cons, h0] at ih ⊢ <;>
        omega

/-- Witness for `aggregate_by_qid_excludes_sentinel`: the first conjunct
applied to the row list `[(2, 7)]` and its single output pair. -/
theorem aggregate_by_qid_excludes_sentinel_witness :
    ∃ r ∈ [((2 : ℕ), (7 : ℕ))], r.1 ≠ 0 ∧ ("Q2", (7 : ℕ)) = ("Q" ++ toString r.1, r.2) :=
  aggregate_by_qid_excludes_sentinel.1 [(2, 7)] ("Q2", 7) (by decide)

/-! ## C8: the `logprobs` mode formula -/

/-- C8: in `logprobs` mode every observed id is reported with
`log(count + 1) − log(totalViews + maxId)`, the shared `default_logprob` is
`log(1) − log(totalViews + maxId)` which equals the formula at count 0, and
for fixed `totalViews` and `maxId` the reported value is strictly increasing
in the observed count. -/
theorem logprobs_formula_monotone :
    (∀ (data : List (String × ℕ)) (tv mq : ℝ), ∀ p ∈ data,
        (p.1, Real.log ((p.2 : ℝ) + 1) - Real.log (tv + mq))
          ∈ logprobs_result data tv mq) ∧
    (∀ tv mq : ℝ, default_logprob tv mq = logprob_of_views tv mq 0) ∧
    (∀ (tv mq : ℝ) (c1 c2 : ℕ), c1 < c2 →
        logprob_of_views tv mq c1 < logprob_of_views tv mq c2) := by
  refine ⟨?_, ?_, ?_⟩
  · intro data tv mq p hp
    have : (p.1, logprob_of_views tv mq p.2) ∈ logprobs_result data tv mq :=
      List.mem_map_of_mem _ hp
    simpa [logprob_of_views, log_denominator] using this
  · intro tv mq
    simp [default_logprob, logprob_of_views, log_denominator]
  · intro tv mq c1 c2 h
    have h1 : (0 : ℝ) < (c1 : ℝ) + 1 := by positivity
    have h2 : ((c1 : ℝ) + 1) < ((c2 : ℝ) + 1) := by exact_mod_cast Nat.succ_lt_succ h
    exact sub_lt_sub_right (Real.log_lt_log h1 h2) _

/-- Witness for `logprobs_formula_monotone`: the spec's scenario
`totalViews = 98`, `maxId = 2`, count 50 observed for `Q1`, and the strict
monotonicity between counts 0 and 1. -/
theorem logprobs_formula_monotone_witness :
    (("Q1", Real.log ((50 : ℕ) + 1) - Real.log ((98 : ℝ) + 2))
        ∈ logprobs_result [("Q1", 50)] 98 2) ∧
    logprob_of_views 98 2 0 < logprob_of_views 98 2 1 :=
  ⟨logprobs_formula_monotone.1 [("Q1", 50)] 98 2 ("Q1", 50) (by simp),
   logprobs_formula_monotone.2.2 98 2 0 1 (by decide)⟩

/-! ## Lemmas about the cache operations of `chunk_and_partition` -/

section CapLemmas

variable {K V : Type} [DecidableEq K]

theorem cacheFind_mem {c : List (K × List V)} {k : K} {b : List V}
    (h : cacheFind c k = some b) : (k, b) ∈ c := by
  induction c with
  | nil => simp [cacheFind] at h
  | cons e rest ih =>
    rcases e with ⟨k', b'⟩
    by_cases hk : k' = k
    · subst hk
      simp [cacheFind] at h
      simp [h]
    · simp [cacheFind, hk] at h
      simp [ih h]

theorem cacheFind_eq_none_iff {c : List (K × List V)} {k : K} :
    cacheFind c k = none ↔ ∀ b, (k, b) ∉ c := by
  induction c with
  | nil => simp [cacheFind]
  | cons e rest ih =>
    rcases e with ⟨k', b'⟩
    by_cases hk : k' = k
    · subst hk
      simp only [cacheFind, if_pos rfl]
      constructor
      · intro h; simp at h
      · intro h; exact absurd (List.mem_cons_self _ _) (h b')
    · simp only [cacheFind, if_neg hk]
      rw [ih]
      constructor
      · intro h b hb
        rcases List.mem_cons.mp hb with heq | hmem
        · exact hk (congrArg Prod.fst heq).symm
        · exact h b hmem
      · intro h b hb
        exact h b (List.mem_cons_of_mem _ hb)

theorem cacheFind_isSome_iff {c : List (K × List V)} {k : K} :
    (cacheFind c k).isSome ↔ k ∈ c.map Prod.fst := by
  induction c with
  | nil => simp [cacheFind]
  | cons e rest ih =>
    rcases e with ⟨k', b'⟩
    by_cases hk : k' = k
    · subst hk; simp [cacheFind]
    · simp [cacheFind, hk, ih, Ne.symm hk]

theorem cacheFind_cacheAppend_self (c : List (K × List V)) (k : K) (v : V) :
    cacheFind (cacheAppend c k v) k = some ((cacheFind c k).getD [] ++ [v]) := by
  induction c with
  | nil => simp [cacheAppend, cacheFind]
  | cons e rest ih =>
    rcases e with ⟨k', b'⟩
    by_cases hk : k' = k
    · subst hk; simp [cacheAppend, cacheFind]
    · simp [cacheAppend, cacheFind, hk, ih]

theorem cacheFind_cacheAppend_other {c : List (K × List V)} {k k' : K} (v : V)
    (hk : k' ≠ k) : cacheFind (cacheAppend c k v) k' = cacheFind c k' := by
  induction c with
  | nil => simp [cacheAppend, cacheFind, Ne.symm hk]
  | cons e rest ih =>
    rcases e with ⟨k'', b''⟩
    by_cases h1 : k'' = k
    · subst h1
      simp [cacheAppend, cacheFind, Ne.symm hk]
    · by_cases h2 : k'' = k'
      · subst h2; simp [cacheAppend, cacheFind, h1]
      · simp [cacheAppend, cacheFind, h1, h2, ih]

theorem cacheAppend_mem {c : List (K × List V)} {k : K} {v : V}
    {q : K × List V} (h : q ∈ cacheAppend c k v) :
    q ∈ c ∨ q = (k, (cacheFind c k).getD [] ++ [v]) := by
  induction c with
  | nil => simp [cacheAppend, cacheFind] at h ⊢; exact h
  | cons e rest ih =>
    rcases e with ⟨k', b'⟩
    by_cases hk : k' = k
    · subst hk
      simp [cacheAppend, cacheFind] at h ⊢
      tauto
    · simp [cacheAppend, cacheFind, hk] at h ⊢
      rcases h with h | h
      · tauto
      · rcases ih h with h' | h' <;> tauto

theorem cacheAppend_length_of_some {c : List (K × List V)} {k : K} {b : List V}
    (v : V) (h : cacheFind c k = some b) :
    (cacheAppend c k v).length = c.length := by
  induction c with
  | nil => simp [cacheFind] at h
  | cons e rest ih =>
    rcases e with ⟨k', b'⟩
    by_cases hk : k' = k
    · subst hk; simp [cacheAppend]
    · simp [cacheFind, hk] at h
      simp [cacheAppend, hk, ih h]

theorem cacheAppend_length_of_none {c : List (K × List V)} {k : K}
    (v : V) (h : cacheFind c k = none) :
    (cacheAppend c k v).length = c.length + 1 := by
  induction c with
  | nil => simp [cacheAppend]
  | cons e rest ih =>
    rcases e with ⟨k', b'⟩
    by_cases hk : k' = k
    · subst hk; simp [cacheFind] at h
    · simp [cacheFind, hk] at h
      simp [cacheAppend, hk, ih h]

theorem nUnprocessed_cacheAppend (c : List (K × List V)) (k : K) (v : V) :
    nUnprocessed (cacheAppend c k v) = nUnprocessed c + 1 := by
  induction c with
  | nil => simp [cacheAppend, nUnprocessed]
  | cons e rest ih =>
    rcases e with ⟨k', b'⟩
    by_cases hk : k' = k
    · subst hk; simp [cacheAppend, nUnprocessed]; omega
    · simp [cacheAppend, nUnprocessed, hk] at ih ⊢; omega

theorem cacheMass_cacheAppend (c : List (K × List V)) (k : K) (v : V) :
    cacheMass (cacheAppend c k v) = cacheMass c + {v} := by
  induction c with
  | nil => simp [cacheAppend, cacheMass]
  | cons e rest ih =>
    rcases e with ⟨k', b'⟩
    by_cases hk : k' = k
    · subst hk
      have hstep : cacheAppend ((k', b') :: rest) k' v = (k', b' ++ [v]) :: rest := by
        simp [cacheAppend]
      rw [hstep]
      simp only [cacheMass, List.map_cons, List.sum_cons]
      have hco : ((b' ++ [v] : List V) : Multiset V) = ↑b' + {v} := rfl
      rw [hco]
      abel
    · simp [cacheAppend, cacheMass, hk] at ih ⊢
      rw [ih]
      abel

theorem cacheDel_subset {c : List (K × List V)} {k : K} :
    ∀ q ∈ cacheDel c k, q ∈ c := by
  induction c with
  | nil => simp [cacheDel]
  | cons e rest ih =>
    rcases e with ⟨k', b'⟩
    by_cases hk : k' = k
    · subst hk
      simp only [cacheDel, if_pos rfl]
      intro q hq
      exact List.mem_cons_of_mem _ hq
    · simp only [cacheDel, if_neg hk]
      intro q hq
      rcases List.mem_cons.mp hq with h | h
      · exact h ▸ List.mem_cons_self _ _
      · exact List.mem_cons_of_mem _ (ih q h)

theorem cacheDel_length {c : List (K × List V)} {k : K} {b : List V}
    (h : cacheFind c k = some b) :
    c.length = (cacheDel c k).length + 1 := by
  induction c with
  | nil => simp [cacheFind] at h
  | cons e rest ih =>
    rcases e with ⟨k', b'⟩
    by_cases hk : k' = k
    · subst hk; simp [cacheDel]
    · simp [cacheFind, hk] at h
      simp [cacheDel, hk, ih h]

theorem nUnprocessed_cacheDel {c : List (K × List V)} {k : K} {b : List V}
    (h : cacheFind c k = some b) :
    nUnprocessed c = b.length + nUnprocessed (cacheDel c k) := by
  induction c with
  | nil => simp [cacheFind] at h
  | cons e rest ih =>
    rcases e with ⟨k', b'⟩
    by_cases hk : k' = k
    · subst hk
      simp [cacheFind] at h
      subst h
      simp [cacheDel, nUnprocessed]
    · simp [cacheFind, hk] at h
      simp [cacheDel, nUnprocessed, hk] at ih ⊢
      rw [ih h]
      omega

theorem cacheMass_cacheDel {c : List (K × List V)} {k : K} {b : List V}
    (h : cacheFind c k = some b) :
    cacheMass c = ↑b + cacheMass (cacheDel c k) := by
  induction c with
  | nil => simp [cacheFind] at h
  | cons e rest ih =>
    rcases e with ⟨k', b'⟩
    by_cases hk : k' = k
    · subst hk
      simp [cacheFind] at h
      subst h
      simp [cacheDel, cacheMass]
    · simp [cacheFind, hk] at h
      simp [cacheDel, cacheMass, hk] at ih ⊢
      rw [ih h]
      abel

theorem cacheDel_cacheAppend_of_none {c : List (K × List V)} {k : K} (v : V)
    (h : cacheFind c k = none) : cacheDel (cacheAppend c k v) k = c := by
  induction c with
  | nil => simp [cacheAppend, cacheDel]
  | cons e rest ih =>
    rcases e with ⟨k', b'⟩
    by_cases hk : k' = k
    · subst hk; simp [cacheFind] at h
    · simp [cacheFind, hk] at h
      simp [cacheAppend, cacheDel, hk, ih h]

theorem cacheDel_cacheAppend_of_some {c : List (K × List V)} {k : K} {b : List V}
    (v : V) (h : cacheFind c k = some b) :
    cacheDel (cacheAppend c k v) k = cacheDel c k := by
  induction c with
  | nil => simp [cacheFind] at h
  | cons e rest ih =>
    rcases e with ⟨k', b'⟩
    by_cases hk : k' = k
    · subst hk; simp [cacheAppend, cacheDel]
    · simp [cacheFind, hk] at h
      simp [cacheAppend, cacheDel, hk, ih h]

end CapLemmas

section PopLemmas

variable {K V : Type} [DecidableEq K]

theorem popLargest_eq_none_iff {c : List (K × List V)} :
    popLargest c = none ↔ c = [] := by
  match c with
  | [] => simp [popLargest]
  | [e] => simp [popLargest]
  | e :: e2 :: rest =>
    simp only [popLargest]
    rcases h : popLargest (e2 :: rest) with _ | ⟨⟨e', rest'⟩⟩
    · simp [h]
    · simp only [h]
      split <;> simp

theorem popLargest_perm {c : List (K × List V)} {e : K × List V}
    {c' : List (K × List V)} (h : popLargest c = some (e, c')) :
    c.Perm (e :: c') := by
  induction c generalizing e c' with
  | nil => simp [popLargest] at h
  | cons e1 rest ih =>
    match rest with
    | [] =>
      simp only [popLargest, Option.some.injEq, Prod.mk.injEq] at h
      rw [← h.1, ← h.2]
    | e2 :: rest2 =>
      rcases hp : popLargest (e2 :: rest2) with _ | ⟨⟨ep, rp⟩⟩
      · rw [popLargest_eq_none_iff] at hp
        simp at hp
      · have hh : popLargest (e1 :: e2 :: rest2)
            = if e1.2.length < ep.2.length then some (ep, e1 :: rp)
              else some (e1, e2 :: rest2) := by
          simp only [popLargest, hp]
        rw [hh] at h
        by_cases hlen : e1.2.length < ep.2.length
        · rw [if_pos hlen] at h
          simp only [Option.some.injEq, Prod.mk.injEq] at h
          rw [← h.1, ← h.2]
          exact (ih hp |>.cons e1).trans (List.Perm.swap ep e1 rp)
        · rw [if_neg hlen] at h
          simp only [Option.some.injEq, Prod.mk.injEq] at h
          rw [← h.1, ← h.2]

theorem popLargest_le {c : List (K × List V)} {e : K × List V}
    {c' : List (K × List V)} (h : popLargest c = some (e, c')) :
    ∀ q ∈ c, q.2.length ≤ e.2.length := by
  induction c generalizing e c' with
  | nil => simp [popLargest] at h
  | cons e1 rest ih =>
    match rest with
    | [] =>
      simp only [popLargest, Option.some.injEq, Prod.mk.injEq] at h
      rw [← h.1]
      simp
    | e2 :: rest2 =>
      rcases hp : popLargest (e2 :: rest2) with _ | ⟨⟨ep, rp⟩⟩
      · rw [popLargest_eq_none_iff] at hp
        simp at hp
      · have hh : popLargest (e1 :: e2 :: rest2)
            = if e1.2.length < ep.2.length then some (ep, e1 :: rp)
              else some (e1, e2 :: rest2) := by
          simp only [popLargest, hp]
        rw [hh] at h
        by_cases hlen : e1.2.length < ep.2.length
        · rw [if_pos hlen] at h
          simp only [Option.some.injEq, Prod.mk.injEq] at h
          rw [← h.1]
          intro q hq
          rcases List.mem_cons.mp hq with rfl | hq2
          · exact Nat.le_of_lt hlen
          · exact ih hp q hq2
        · rw [if_neg hlen] at h
          simp only [Option.some.injEq, Prod.mk.injEq] at h
          rw [← h.1]
          intro q hq
          rcases List.mem_cons.mp hq with rfl | hq2
          · exact Nat.le_refl _
          · exact Nat.le_trans (ih hp q hq2) (Nat.le_of_not_lt hlen)

theorem popLargest_mem {c : List (K × List V)} {e : K × List V}
    {c' : List (K × List V)} (h : popLargest c = some (e, c')) : e ∈ c :=
  (popLargest_perm h).symm.subset (List.mem_cons_self _ _)

theorem popLargest_subset {c : List (K × List V)} {e : K × List V}
    {c' : List (K × List V)} (h : popLargest c = some (e, c')) :
    ∀ q ∈ c', q ∈ c := fun _ hq =>
  (popLargest_perm h).symm.subset (List.mem_cons_of_mem _ hq)

theorem popLargest_length {c : List (K × List V)} {e : K × List V}
    {c' : List (K × List V)} (h : popLargest c = some (e, c')) :
    c.length = c'.length + 1 := by
  have := (popLargest_perm h).length_eq
  simpa using this

theorem popLargest_nUnprocessed {c : List (K × List V)} {e : K × List V}
    {c' : List (K × List V)} (h : popLargest c = some (e, c')) :
    nUnprocessed c = e.2.length + nUnprocessed c' := by
  have hp := (popLargest_perm h).map (fun p => p.2.length)
  have := hp.sum_eq
  simpa [nUnprocessed] using this

theorem popLargest_cacheMass {c : List (K × List V)} {e : K × List V}
    {c' : List (K × List V)} (h : popLargest c = some (e, c')) :
    cacheMass c = ↑e.2 + cacheMass c' := by
  have hp := (popLargest_perm h).map (fun p => (p.2 : Multiset V))
  have := hp.sum_eq
  simpa [cacheMass] using this

theorem capPre_cases (mb : Option ℕ) (c : List (K × List V)) (p : K) :
    (capPre mb c p = ([], c)) ∨
    (∃ b e c', mb = some b ∧ c.length = b ∧ cacheFind c p = none ∧
      popLargest c = some (e, c') ∧ capPre mb c p = ([e], c')) := by
  rcases mb with _ | b
  · exact Or.inl (by simp [capPre])
  · simp only [capPre]
    split
    next hcond =>
      split
      next ec heq =>
        right
        exact ⟨b, ec.1, ec.2, rfl, hcond.1,
          Option.isNone_iff_eq_none.mp hcond.2, by simpa using heq, rfl⟩
      next heq => exact Or.inl rfl
    next hcond => exact Or.inl rfl

theorem capMuCheck_cases (mu : Option ℕ) (es c : List (K × List V)) :
    (capMuCheck mu es c = (es, c)) ∨
    (∃ m e c', mu = some m ∧ nUnprocessed c = m ∧
      popLargest c = some (e, c') ∧ capMuCheck mu es c = (es ++ [e], c')) := by
  rcases mu with _ | m
  · exact Or.inl (by simp [capMuCheck])
  · simp only [capMuCheck]
    split
    next hcond =>
      split
      next ec heq =>
        right
        exact ⟨m, ec.1, ec.2, rfl, hcond, by simpa using heq, rfl⟩
      next heq => exact Or.inl rfl
    next hcond => exact Or.inl rfl

end PopLemmas

section MassLemmas

variable {K V : Type} [DecidableEq K]

theorem cacheMass_nil : cacheMass ([] : List (K × List V)) = 0 := rfl

theorem cacheMass_cons (e : K × List V) (t : List (K × List V)) :
    cacheMass (e :: t) = ↑e.2 + cacheMass t := by
  simp [cacheMass]

theorem cacheMass_append (a b : List (K × List V)) :
    cacheMass (a ++ b) = cacheMass a + cacheMass b := by
  simp [cacheMass]

theorem capMuCheck_mass (mu : Option ℕ) (es c : List (K × List V)) :
    cacheMass (capMuCheck mu es c).1 + cacheMass (capMuCheck mu es c).2
      = cacheMass es + cacheMass c := by
  rcases capMuCheck_cases mu es c with h | ⟨m, e, c', _, _, hpop, h⟩ <;> rw [h]
  rw [cacheMass_append, popLargest_cacheMass hpop, cacheMass_cons]
  simp [cacheMass]
  abel

theorem capStep_mass (key : V → K) (cs mu mb : Option ℕ)
    (c : List (K × List V)) (x : V) :
    cacheMass (capStep key cs mu mb c x).1 + cacheMass (capStep key cs mu mb c x).2
      = cacheMass c + {x} := by
  rcases capPre_cases mb c (key x) with hpre | ⟨b, e, c', hmb, hlen, hfind, hpop, hpre⟩
  · have hmass2 : cacheMass (cacheAppend c (key x) x) = cacheMass c + {x} :=
      cacheMass_cacheAppend c (key x) x
    have hself := cacheFind_cacheAppend_self c (key x) x
    simp only [capStep, hpre]
    rcases cs with _ | n
    · rw [capMuCheck_mass, cacheMass_nil, hmass2, zero_add]
    · simp only [hself, Option.getD_some]
      split
      · have hdel := cacheMass_cacheDel (c := cacheAppend c (key x) x) hself
        have hLdel := hdel.symm.trans hmass2
        simp only [cacheMass_append, cacheMass_cons, cacheMass_nil, add_zero,
          zero_add, List.nil_append]
        exact hLdel
      · rw [capMuCheck_mass, cacheMass_nil, hmass2, zero_add]
  · have hmassc : cacheMass c = ↑e.2 + cacheMass c' := popLargest_cacheMass hpop
    have hmass2 : cacheMass (cacheAppend c' (key x) x) = cacheMass c' + {x} :=
      cacheMass_cacheAppend c' (key x) x
    have hself := cacheFind_cacheAppend_self c' (key x) x
    simp only [capStep, hpre]
    rcases cs with _ | n
    · rw [capMuCheck_mass, hmass2, hmassc, cacheMass_cons, cacheMass_nil, add_zero]
      abel
    · simp only [hself, Option.getD_some]
      split
      · have hdel := cacheMass_cacheDel (c := cacheAppend c' (key x) x) hself
        have hLdel := hdel.symm.trans hmass2
        simp only [cacheMass_append, cacheMass_cons, cacheMass_nil, add_zero,
          zero_add]
        rw [hmassc, add_assoc, hLdel]
        abel
      · rw [capMuCheck_mass, cacheMass_cons, cacheMass_nil, add_zero, hmass2,
          hmassc]
        abel

theorem capRun_mass (key : V → K) (cs mu mb : Option ℕ)
    (items : List V) (c : List (K × List V)) :
    cacheMass (capRun key cs mu mb items c).1
        + cacheMass (capRun key cs mu mb items c).2
      = cacheMass c + ↑items := by
  induction items generalizing c with
  | nil => simp [capRun, cacheMass_nil]
  | cons x xs ih =>
    simp only [capRun, cacheMass_append]
    have hstep := capStep_mass key cs mu mb c x
    have hrest := ih (capStep key cs mu mb c x).2
    have hco : ((x :: xs : List V) : Multiset V) = {x} + ↑xs := by
      simp [Multiset.cons_coe]
    rw [add_assoc, hrest, ← add_assoc, hstep, hco]
    abel

end MassLemmas

section WellKeyedLemmas

variable {K V : Type} [DecidableEq K] {key : V → K}

theorem wellKeyed_nil : WellKeyed key ([] : List (K × List V)) := by
  intro q hq
  simp at hq

theorem wellKeyed_of_subset {c c' : List (K × List V)}
    (h : WellKeyed key c) (hsub : ∀ q ∈ c', q ∈ c) : WellKeyed key c' :=
  fun q hq => h q (hsub q hq)

theorem wellKeyed_append {a b : List (K × List V)} :
    WellKeyed key (a ++ b) ↔ WellKeyed key a ∧ WellKeyed key b := by
  unfold WellKeyed
  simp only [List.mem_append]
  constructor
  · intro h
    exact ⟨fun q hq => h q (Or.inl hq), fun q hq => h q (Or.inr hq)⟩
  · rintro ⟨h1, h2⟩ q (hq | hq)
    · exact h1 q hq
    · exact h2 q hq

theorem wellKeyed_cacheAppend {c : List (K × List V)} {x : V}
    (h : WellKeyed key c) : WellKeyed key (cacheAppend c (key x) x) := by
  intro q hq
  rcases cacheAppend_mem hq with hmem | rfl
  · exact h q hmem
  · intro y hy
    rcases List.mem_append.mp hy with hy1 | hy2
    · rcases hfind : cacheFind c (key x) with _ | bb
      · rw [hfind] at hy1
        simp at hy1
      · rw [hfind] at hy1
        simp only [Option.getD_some] at hy1
        exact h (key x, bb) (cacheFind_mem hfind) y hy1
    · simp at hy2
      subst hy2
      rfl

theorem capStep_wellKeyed {c : List (K × List V)} {cs mu mb : Option ℕ} {x : V}
    (h : WellKeyed key c) :
    WellKeyed key (capStep key cs mu mb c x).1 ∧
      WellKeyed key (capStep key cs mu mb c x).2 := by
  have main : ∀ es1 c1, WellKeyed key es1 → WellKeyed key c1 →
      (capPre mb c (key x) = (es1, c1)) →
      WellKeyed key (capStep key cs mu mb c x).1 ∧
        WellKeyed key (capStep key cs mu mb c x).2 := by
    intro es1 c1 hes1 hc1 hpre
    have hc2 : WellKeyed key (cacheAppend c1 (key x) x) := wellKeyed_cacheAppend hc1
    have hself := cacheFind_cacheAppend_self c1 (key x) x
    have hbentry : ((key x : K), (cacheFind c1 (key x)).getD [] ++ [x])
        ∈ cacheAppend c1 (key x) x := cacheFind_mem hself
    simp only [capStep, hpre]
    rcases cs with _ | n
    · rcases capMuCheck_cases mu es1 (cacheAppend c1 (key x) x) with hmu |
        ⟨m, e2, c2', _, _, hpop2, hmu⟩ <;> rw [hmu]
      · exact ⟨hes1, hc2⟩
      · refine ⟨wellKeyed_append.mpr ⟨hes1, ?_⟩,
          wellKeyed_of_subset hc2 (popLargest_subset hpop2)⟩
        intro q hq
        simp at hq
        subst hq
        exact hc2 _ (popLargest_mem hpop2)
    · simp only [hself, Option.getD_some]
      split
      · constructor
        · refine wellKeyed_append.mpr ⟨hes1, ?_⟩
          intro q hq
          simp at hq
          subst hq
          exact hc2 _ hbentry
        · exact wellKeyed_of_subset hc2 cacheDel_subset
      · rcases capMuCheck_cases mu es1 (cacheAppend c1 (key x) x) with hmu |
          ⟨m, e2, c2', _, _, hpop2, hmu⟩ <;> rw [hmu]
        · exact ⟨hes1, hc2⟩
        · refine ⟨wellKeyed_append.mpr ⟨hes1, ?_⟩,
            wellKeyed_of_subset hc2 (popLargest_subset hpop2)⟩
          intro q hq
          simp at hq
          subst hq
          exact hc2 _ (popLargest_mem hpop2)
  rcases capPre_cases mb c (key x) with hpre | ⟨b, e, c', _, _, _, hpop, hpre⟩
  · exact main [] c wellKeyed_nil h hpre
  · refine main [e] c' ?_ (wellKeyed_of_subset h (popLargest_subset hpop)) hpre
    intro q hq
    simp at hq
    subst hq
    exact h _ (popLargest_mem hpop)

theorem capRun_wellKeyed {cs mu mb : Option ℕ} (items : List V)
    (c : List (K × List V)) (h : WellKeyed key c) :
    WellKeyed key (capRun key cs mu mb items c).1 ∧
      WellKeyed key (capRun key cs mu mb items c).2 := by
  induction items generalizing c with
  | nil => exact ⟨wellKeyed_nil, h⟩
  | cons x xs ih =>
    have hstep := @capStep_wellKeyed K V _ key c cs mu mb x h
    have hrest := ih (capStep key cs mu mb c x).2 hstep.2
    simp only [capRun]
    exact ⟨wellKeyed_append.mpr ⟨hstep.1, hrest.1⟩, hrest.2⟩

end WellKeyedLemmas

section PartitionLemmas

variable {K V : Type} [DecidableEq K] {key : V → K}

theorem keys_cacheAppend_of_some {c : List (K × List V)} {k : K} {b : List V}
    (v : V) (h : cacheFind c k = some b) :
    (cacheAppend c k v).map Prod.fst = c.map Prod.fst := by
  induction c with
  | nil => simp [cacheFind] at h
  | cons e rest ih =>
    rcases e with ⟨k', b'⟩
    by_cases hk : k' = k
    · subst hk; simp [cacheAppend]
    · simp [cacheFind, hk] at h
      simp [cacheAppend, hk, ih h]

theorem keys_cacheAppend_of_none {c : List (K × List V)} {k : K}
    (v : V) (h : cacheFind c k = none) :
    (cacheAppend c k v).map Prod.fst = c.map Prod.fst ++ [k] := by
  induction c with
  | nil => simp [cacheAppend]
  | cons e rest ih =>
    rcases e with ⟨k', b'⟩
    by_cases hk : k' = k
    · subst hk; simp [cacheFind] at h
    · simp [cacheFind, hk] at h
      simp [cacheAppend, hk, ih h]

theorem mem_cacheAppend_iff {c : List (K × List V)} {k : K} {v : V}
    {q : K × List V} (hnd : (c.map Prod.fst).Nodup) :
    q ∈ cacheAppend c k v ↔
      ((q ∈ c ∧ q.1 ≠ k) ∨ q = (k, (cacheFind c k).getD [] ++ [v])) := by
  induction c with
  | nil => simp [cacheAppend, cacheFind]
  | cons e rest ih =>
    rcases e with ⟨k', b'⟩
    simp only [List.map_cons, List.nodup_cons] at hnd
    by_cases hk : k' = k
    · subst hk
      have hfind : cacheFind ((k', b') :: rest) k' = some b' := by
        simp [cacheFind]
      rw [hfind]
      have happ : cacheAppend ((k', b') :: rest) k' v = (k', b' ++ [v]) :: rest := by
        simp [cacheAppend]
      rw [happ]
      simp only [Option.getD_some, List.mem_cons]
      constructor
      · rintro (rfl | hq)
        · exact Or.inr rfl
        · refine Or.inl ⟨Or.inr hq, ?_⟩
          intro h1
          exact hnd.1 (h1 ▸ List.mem_map_of_mem Prod.fst hq)
      · rintro (⟨hq1, hq2⟩ | rfl)
        · rcases hq1 with rfl | hq1
          · exact absurd rfl hq2
          · exact Or.inr hq1
        · exact Or.inl rfl
    · have hfind : cacheFind ((k', b') :: rest) k = cacheFind rest k := by
        simp [cacheFind, hk]
      rw [hfind]
      have happ : cacheAppend ((k', b') :: rest) k v
          = (k', b') :: cacheAppend rest k v := by
        simp [cacheAppend, hk]
      rw [happ]
      simp only [List.mem_cons]
      rw [ih hnd.2]
      constructor
      · rintro (rfl | (⟨hq1, hq2⟩ | rfl))
        · exact Or.inl ⟨Or.inl rfl, hk⟩
        · exact Or.inl ⟨Or.inr hq1, hq2⟩
        · exact Or.inr rfl
      · rintro (⟨hq1, hq2⟩ | rfl)
        · rcases hq1 with rfl | hq1
          · exact Or.inl rfl
          · exact Or.inr (Or.inl ⟨hq1, hq2⟩)
        · exact Or.inr (Or.inr rfl)

theorem partInv_cacheAppend {processed : List V} {c : List (K × List V)}
    (h : PartInv key processed c) (x : V) :
    PartInv key (processed ++ [x]) (cacheAppend c (key x) x) := by
  obtain ⟨hnd, hbuckets, hcomplete⟩ := h
  have hfilter_none : cacheFind c (key x) = none →
      processed.filter (fun y => key y = key x) = [] := by
    intro hfind
    rw [List.filter_eq_nil_iff]
    intro y hy hkey
    have : key y ∈ c.map Prod.fst := hcomplete y hy
    rw [← cacheFind_isSome_iff] at this
    rw [show key y = key x from of_decide_eq_true hkey] at this
    rw [hfind] at this
    simp at this
  refine ⟨?_, ?_, ?_⟩
  · rcases hfind : cacheFind c (key x) with _ | b
    · rw [keys_cacheAppend_of_none x hfind]
      have hnotmem : key x ∉ c.map Prod.fst := by
        rw [← cacheFind_isSome_iff, hfind]
        simp
      simp [List.nodup_append, hnd, hnotmem]
    · rw [keys_cacheAppend_of_some x hfind]
      exact hnd
  · intro q hq
    rcases (mem_cacheAppend_iff hnd).mp hq with ⟨hq1, hq2⟩ | rfl
    · rw [List.filter_append, hbuckets q hq1]
      have : List.filter (fun y => decide (key y = q.1)) [x] = [] := by
        simp [Ne.symm hq2]
      rw [this, List.append_nil]
    · simp only [List.filter_append]
      have hx : List.filter (fun y => decide (key y = key x)) [x] = [x] := by
        simp
      rw [hx]
      rcases hfind : cacheFind c (key x) with _ | b
      · rw [hfilter_none hfind]
        simp
      · simp only [Option.getD_some]
        exact congrArg (fun l => l ++ [x]) (hbuckets (key x, b) (cacheFind_mem hfind))
  · intro y hy
    rcases List.mem_append.mp hy with hy1 | hy2
    · have := hcomplete y hy1
      rcases hfind : cacheFind c (key x) with _ | b
      · rw [keys_cacheAppend_of_none x hfind]
        exact List.mem_append.mpr (Or.inl this)
      · rw [keys_cacheAppend_of_some x hfind]
        exact this
    · simp at hy2
      subst hy2
      have := cacheFind_cacheAppend_self c (key y) y
      have hsome : (cacheFind (cacheAppend c (key y) y) (key y)).isSome := by
        rw [this]; rfl
      exact cacheFind_isSome_iff.mp hsome

theorem capStep_no_bounds (c : List (K × List V)) (x : V) :
    capStep key none none none c x = ([], cacheAppend c (key x) x) := rfl

theorem capRun_no_bounds_partition (items : List V) (processed : List V)
    (c : List (K × List V)) (h : PartInv key processed c) :
    (capRun key none none none items c).1 = [] ∧
      PartInv key (processed ++ items) (capRun key none none none items c).2 := by
  induction items generalizing processed c with
  | nil =>
    simpa [capRun] using h
  | cons x xs ih =>
    have hstep := @capStep_no_bounds K V _ key c x
    simp only [capRun, hstep]
    have hinv := partInv_cacheAppend h x
    have := ih (processed ++ [x]) (cacheAppend c (key x) x) hinv
    simpa [List.append_assoc] using this

end PartitionLemmas

/-! ## C2: exactness of `chunk_and_partition` -/

/-- C2: for every input, key function and valid bound setting, the batcher
succeeds, every emitted `(key, items)` pair holds only items the key
function maps to that key, the multiset union of all emitted buckets equals
the input multiset (every item appears exactly once), and with no bounds set
the output is the full partition of the input by key: one bucket per
distinct key, holding exactly the matching items in input order. -/
theorem chunk_and_partition_exact {K V : Type} [DecidableEq K]
    (items : List V) (key : V → K) (cs mu mb : Option ℕ)
    (h1 : check_optional_positive cs = true)
    (h2 : check_optional_positive mu = true)
    (h3 : check_optional_positive mb = true) :
    ∃ out, chunk_and_partition items key cs mu mb = some out ∧
      (∀ p ∈ out, ∀ x ∈ p.2, key x = p.1) ∧
      cacheMass out = (items : Multiset V) ∧
      (cs = none → mu = none → mb = none →
        (out.map Prod.fst).Nodup ∧
        (∀ p ∈ out, p.2 = items.filter (fun y => decide (key y = p.1))) ∧
        (∀ x ∈ items, key x ∈ out.map Prod.fst)) := by
  refine ⟨(capRun key cs mu mb items []).1 ++ (capRun key cs mu mb items []).2,
    ?_, ?_, ?_, ?_⟩
  · simp [chunk_and_partition, h1, h2, h3]
  · have hwk := @capRun_wellKeyed K V _ key cs mu mb items
      ([] : List (K × List V)) (@wellKeyed_nil K V _ key)
    exact wellKeyed_append.mpr hwk
  · rw [cacheMass_append]
    have := capRun_mass key cs mu mb items []
    rwa [cacheMass_nil, zero_add] at this
  · rintro rfl rfl rfl
    have hinv0 : PartInv key ([] : List V) ([] : List (K × List V)) := by
      refine ⟨by simp, by simp, by simp⟩
    have hp := capRun_no_bounds_partition items [] [] hinv0
    rw [hp.1, List.nil_append]
    simpa [PartInv] using hp.2

/-- Witness for `chunk_and_partition_exact` at a concrete run: five naturals
keyed by residue mod 3 with `chunk_size = 2`, `max_unprocessed = 3`,
`max_buckets = 2`. -/
theorem chunk_and_partition_exact_witness :
    ∃ out, chunk_and_partition [1, 2, 3, 4, 5] (fun i => i % 3)
        (some 2) (some 3) (some 2) = some out ∧
      (∀ p ∈ out, ∀ x ∈ p.2, x % 3 = p.1) ∧
      cacheMass out = (([1, 2, 3, 4, 5] : List ℕ) : Multiset ℕ) ∧
      (some 2 = none → some 3 = none → some 2 = none →
        (out.map Prod.fst).Nodup ∧
        (∀ p ∈ out, p.2 = [1, 2, 3, 4, 5].filter (fun y => decide (y % 3 = p.1))) ∧
        (∀ x ∈ [1, 2, 3, 4, 5], x % 3 ∈ out.map Prod.fst)) :=
  chunk_and_partition_exact [1, 2, 3, 4, 5] (fun i => i % 3)
    (some 2) (some 3) (some 2) rfl rfl rfl

section BoundLemmas

variable {K V : Type} [DecidableEq K]

theorem check_optional_positive_some {o : Option ℕ} {n : ℕ}
    (h1 : check_optional_positive o = true) (h2 : o = some n) : 0 < n := by
  subst h2
  simpa [check_optional_positive] using h1

theorem cacheDel_cacheAppend_subset {c : List (K × List V)} {k : K} {v : V} :
    ∀ q ∈ cacheDel (cacheAppend c k v) k, q ∈ c := by
  rcases hf : cacheFind c k with _ | b
  · rw [cacheDel_cacheAppend_of_none v hf]
    exact fun q hq => hq
  · rw [cacheDel_cacheAppend_of_some v hf]
    exact cacheDel_subset

theorem capPre_cases' (mb : Option ℕ) (c : List (K × List V)) (p : K) :
    (capPre mb c p = ([], c) ∧
      (∀ b, mb = some b → c.length = b → cacheFind c p = none → c = [])) ∨
    (∃ b e c', mb = some b ∧ c.length = b ∧ cacheFind c p = none ∧
      popLargest c = some (e, c') ∧ capPre mb c p = ([e], c')) := by
  rcases mb with _ | b
  · refine Or.inl ⟨by simp [capPre], ?_⟩
    intro b h
    cases h
  · simp only [capPre]
    split
    next hcond =>
      split
      next ec heq =>
        right
        exact ⟨b, ec.1, ec.2, rfl, hcond.1,
          Option.isNone_iff_eq_none.mp hcond.2, by simpa using heq, rfl⟩
      next heq =>
        refine Or.inl ⟨rfl, ?_⟩
        intro b' _ _ _
        exact popLargest_eq_none_iff.mp heq
    next hcond =>
      refine Or.inl ⟨rfl, ?_⟩
      intro b' hb' hlen hfind
      exfalso
      apply hcond
      injection hb' with hb'
      subst hb'
      exact ⟨hlen, by simp [hfind]⟩

theorem capMuCheck_cases' (mu : Option ℕ) (es c : List (K × List V)) :
    (capMuCheck mu es c = (es, c) ∧
      (∀ m, mu = some m → nUnprocessed c = m → c = [])) ∨
    (∃ m e c', mu = some m ∧ nUnprocessed c = m ∧
      popLargest c = some (e, c') ∧ capMuCheck mu es c = (es ++ [e], c')) := by
  rcases mu with _ | m
  · refine Or.inl ⟨by simp [capMuCheck], ?_⟩
    intro m h
    cases h
  · simp only [capMuCheck]
    split
    next hcond =>
      split
      next ec heq =>
        right
        exact ⟨m, ec.1, ec.2, rfl, hcond, by simpa using heq, rfl⟩
      next heq =>
        refine Or.inl ⟨rfl, ?_⟩
        intro m' _ _
        exact popLargest_eq_none_iff.mp heq
    next hcond =>
      refine Or.inl ⟨rfl, ?_⟩
      intro m' hm' hn
      exfalso
      apply hcond
      injection hm' with hm'
      subst hm'
      exact hn

end BoundLemmas

section Stage2

variable {K V : Type} [DecidableEq K]

theorem capStep_stage2 {key : V → K} {cs mu mb : Option ℕ}
    (hcs : check_optional_positive cs = true)
    (hmu : check_optional_positive mu = true)
    {c : List (K × List V)} {x : V} {es1 c1 : List (K × List V)}
    (hpre : capPre mb c (key x) = (es1, c1))
    (hc1_ne : ∀ q ∈ c1, q.2 ≠ [])
    (hc1_lt : ∀ n, cs = some n → ∀ q ∈ c1, q.2.length < n)
    (hc1_mass : ∀ m, mu = some m → nUnprocessed c1 < m) :
    (∀ q ∈ (capStep key cs mu mb c x).2, q.2 ≠ []) ∧
    (∀ n, cs = some n → ∀ q ∈ (capStep key cs mu mb c x).2, q.2.length < n) ∧
    ((capStep key cs mu mb c x).2.length ≤ (cacheAppend c1 (key x) x).length) ∧
    (∀ m, mu = some m → nUnprocessed (capStep key cs mu mb c x).2 < m) ∧
    (∀ q ∈ (capStep key cs mu mb c x).2, q ∈ cacheAppend c1 (key x) x) ∧
    (∃ extra, (capStep key cs mu mb c x).1 = es1 ++ extra ∧
      ∀ p ∈ extra, p.2 ≠ [] ∧ (∀ n, cs = some n → p.2.length ≤ n) ∧
        (cs = some p.2.length ∨
          ∀ q ∈ (capStep key cs mu mb c x).2, q.2.length ≤ p.2.length)) := by
  have hself := cacheFind_cacheAppend_self c1 (key x) x
  have hne2 : ∀ q ∈ cacheAppend c1 (key x) x, q.2 ≠ [] := by
    intro q hq
    rcases cacheAppend_mem hq with h | rfl
    · exact hc1_ne q h
    · simp
  have hle2 : ∀ n, cs = some n → ∀ q ∈ cacheAppend c1 (key x) x, q.2.length ≤ n := by
    intro n hn q hq
    rcases cacheAppend_mem hq with h | rfl
    · exact Nat.le_of_lt (hc1_lt n hn q h)
    · rcases hf : cacheFind c1 (key x) with _ | bb
      · simpa using check_optional_positive_some hcs hn
      · have := hc1_lt n hn (key x, bb) (cacheFind_mem hf)
        simp at this ⊢
        omega
  have hmass2 : nUnprocessed (cacheAppend c1 (key x) x) = nUnprocessed c1 + 1 :=
    nUnprocessed_cacheAppend c1 (key x) x
  rcases cs with _ | n
  · -- chunk_size is None: the chunk check is skipped
    simp only [capStep, hpre]
    rcases capMuCheck_cases' mu es1 (cacheAppend c1 (key x) x) with
      ⟨heq, hside⟩ | ⟨m, e2, c2', hmu_eq, hm, hpop2, heq⟩ <;> rw [heq] <;> dsimp only
    · refine ⟨hne2, (by intro n hn; cases hn), Nat.le_refl _, ?_, fun q hq => hq,
        [], by simp, by simp⟩
      intro m hm'
      by_cases he : nUnprocessed (cacheAppend c1 (key x) x) = m
      · have hcnil := hside m hm' he
        rw [hcnil]
        simpa [nUnprocessed] using check_optional_positive_some hmu hm'
      · have := hc1_mass m hm'
        omega
    · have he2mem := popLargest_mem hpop2
      have hsub2 := popLargest_subset hpop2
      have hlen2 := popLargest_le hpop2
      have hnu := popLargest_nUnprocessed hpop2
      have hlenpop := popLargest_length hpop2
      refine ⟨fun q hq => hne2 q (hsub2 q hq), (by intro n hn; cases hn), by omega,
        ?_, fun q hq => hsub2 q hq, [e2], rfl, ?_⟩
      · intro m' hm'
        have hmm : m = m' := by
          rw [hmu_eq] at hm'
          injection hm'
        subst hmm
        have hpos : 0 < e2.2.length := List.length_pos.mpr (hne2 e2 he2mem)
        omega
      · intro p hp
        simp only [List.mem_singleton] at hp
        subst hp
        exact ⟨hne2 _ he2mem, (by intro n hn; cases hn),
          Or.inr fun q hq => hlen2 q (hsub2 q hq)⟩
  · -- chunk_size = some n
    have hpos_n : 0 < n := check_optional_positive_some hcs rfl
    simp only [capStep, hpre, hself, Option.getD_some]
    split
    next hLn =>
      dsimp only
      have hdelsub : ∀ q ∈ cacheDel (cacheAppend c1 (key x) x) (key x), q ∈ c1 :=
        cacheDel_cacheAppend_subset
      have hdlen := cacheDel_length hself
      have hdnu := nUnprocessed_cacheDel hself
      refine ⟨fun q hq => hc1_ne q (hdelsub q hq), ?_, by omega, ?_,
        fun q hq => cacheDel_subset q hq,
        [(key x, (cacheFind c1 (key x)).getD [] ++ [x])], rfl, ?_⟩
      · intro n' hn' q hq
        exact hc1_lt n' hn' q (hdelsub q hq)
      · intro m hm'
        have h1 := hc1_mass m hm'
        simp only [List.length_append, List.length_singleton] at hLn hdnu
        omega
      · intro p hp
        simp only [List.mem_singleton] at hp
        subst hp
        refine ⟨by simp, ?_, Or.inl ?_⟩
        · intro n' hn'
          injection hn' with h
          dsimp only
          omega
        · exact congrArg some hLn.symm
    next hLn =>
      have hlt2 : ∀ q ∈ cacheAppend c1 (key x) x, q.2.length < n := by
        intro q hq
        have hle := hle2 n rfl q hq
        rcases cacheAppend_mem hq with h | rfl
        · exact hc1_lt n rfl q h
        · exact Nat.lt_of_le_of_ne hle (by simpa using hLn)
      rcases capMuCheck_cases' mu es1 (cacheAppend c1 (key x) x) with
        ⟨heq, hside⟩ | ⟨m, e2, c2', hmu_eq, hm, hpop2, heq⟩ <;> rw [heq] <;> dsimp only
      · refine ⟨hne2, ?_, Nat.le_refl _, ?_, fun q hq => hq, [], by simp, by simp⟩
        · intro n' hn' q hq
          injection hn' with h
          have := hlt2 q hq
          omega
        · intro m hm'
          by_cases he : nUnprocessed (cacheAppend c1 (key x) x) = m
          · have hcnil := hside m hm' he
            rw [hcnil]
            simpa [nUnprocessed] using check_optional_positive_some hmu hm'
          · have := hc1_mass m hm'
            omega
      · have he2mem := popLargest_mem hpop2
        have hsub2 := popLargest_subset hpop2
        have hlen2 := popLargest_le hpop2
        have hnu := popLargest_nUnprocessed hpop2
        have hlenpop := popLargest_length hpop2
        refine ⟨fun q hq => hne2 q (hsub2 q hq), ?_, by omega, ?_,
          fun q hq => hsub2 q hq, [e2], rfl, ?_⟩
        · intro n' hn' q hq
          injection hn' with h
          have := hlt2 q (hsub2 q hq)
          omega
        · intro m' hm'
          have hmm : m = m' := by
            rw [hmu_eq] at hm'
            injection hm'
          subst hmm
          have hpos : 0 < e2.2.length := List.length_pos.mpr (hne2 e2 he2mem)
          omega
        · intro p hp
          simp only [List.mem_singleton] at hp
          subst hp
          refine ⟨hne2 _ he2mem, ?_,
            Or.inr fun q hq => hlen2 q (hsub2 q hq)⟩
          intro n' hn'
          injection hn' with h
          have := hlt2 _ he2mem
          omega

end Stage2

section StepBounds

variable {K V : Type} [DecidableEq K]

theorem capStep_bounds {key : V → K} {cs mu mb : Option ℕ}
    (hcs : check_optional_positive cs = true)
    (hmu : check_optional_positive mu = true)
    (hmb : check_optional_positive mb = true)
    {c : List (K × List V)} (x : V) (hinv : CapInv cs mu mb c) :
    CapInv cs mu mb (capStep key cs mu mb c x).2 ∧
    (∀ p ∈ (capStep key cs mu mb c x).1,
      (∀ n, cs = some n → p.2.length ≤ n) ∧
      (cs = some p.2.length ∨
        ∀ q ∈ (capStep key cs mu mb c x).2, q.2.length ≤ p.2.length)) := by
  obtain ⟨hne, hlt, hcnt, hmass⟩ := hinv
  rcases capPre_cases' mb c (key x) with ⟨hpre, hside⟩ |
    ⟨b, e, c', hmbe, hlenb, hfindc, hpop, hpre⟩
  · obtain ⟨f_ne, f_lt, f_len, f_mass, f_sub, extra, hex, hextra⟩ :=
      capStep_stage2 hcs hmu hpre hne hlt hmass
    have hcount : ∀ bm, mb = some bm → (capStep key cs mu mb c x).2.length ≤ bm := by
      intro bm hbm
      have hbpos := check_optional_positive_some hmb hbm
      rcases hf : cacheFind c (key x) with _ | bb
      · by_cases hcb : c.length = bm
        · have hnil := hside bm hbm hcb hf
          have h0 : c.length = 0 := by rw [hnil]; rfl
          omega
        · have hlen_append := cacheAppend_length_of_none x hf
          have := hcnt bm hbm
          omega
      · have hlen_append := cacheAppend_length_of_some x hf
        have := hcnt bm hbm
        omega
    refine ⟨⟨f_ne, f_lt, hcount, f_mass⟩, ?_⟩
    intro p hp
    rw [hex] at hp
    simp only [List.nil_append] at hp
    obtain ⟨_, hle, hlarge⟩ := hextra p hp
    exact ⟨hle, hlarge⟩
  · have hsub' := popLargest_subset hpop
    have hne' : ∀ q ∈ c', q.2 ≠ [] := fun q hq => hne q (hsub' q hq)
    have hlt' : ∀ n, cs = some n → ∀ q ∈ c', q.2.length < n :=
      fun n hn q hq => hlt n hn q (hsub' q hq)
    have hnu := popLargest_nUnprocessed hpop
    have hmass' : ∀ m, mu = some m → nUnprocessed c' < m := by
      intro m hm
      have := hmass m hm
      omega
    obtain ⟨f_ne, f_lt, f_len, f_mass, f_sub, extra, hex, hextra⟩ :=
      capStep_stage2 hcs hmu hpre hne' hlt' hmass'
    have hfind' : cacheFind c' (key x) = none := by
      rw [cacheFind_eq_none_iff] at hfindc ⊢
      intro bb hbb
      exact hfindc bb (hsub' _ hbb)
    have hemem := popLargest_mem hpop
    have hepos : 0 < e.2.length := List.length_pos.mpr (hne e hemem)
    have hcount : ∀ bm, mb = some bm → (capStep key cs mu mb c x).2.length ≤ bm := by
      intro bm hbm
      have hbb : b = bm := by
        rw [hmbe] at hbm
        injection hbm
      subst hbb
      have hlen_append := cacheAppend_length_of_none x hfind'
      have hpoplen := popLargest_length hpop
      omega
    refine ⟨⟨f_ne, f_lt, hcount, f_mass⟩, ?_⟩
    intro p hp
    rw [hex] at hp
    rcases List.mem_append.mp hp with hp1 | hp2
    · simp only [List.mem_singleton] at hp1
      subst hp1
      constructor
      · intro n hn
        exact Nat.le_of_lt (hlt n hn _ hemem)
      · refine Or.inr ?_
        intro q hq
        rcases cacheAppend_mem (f_sub q hq) with hq1 | hq2
        · exact popLargest_le hpop q (hsub' q hq1)
        · rw [hq2]
          simp only [hfind', Option.getD_none, List.nil_append, List.length_singleton]
          omega
    · obtain ⟨_, hle, hlarge⟩ := hextra p hp2
      exact ⟨hle, hlarge⟩

theorem capRun_bounds {key : V → K} {cs mu mb : Option ℕ}
    (hcs : check_optional_positive cs = true)
    (hmu : check_optional_positive mu = true)
    (hmb : check_optional_positive mb = true)
    (items : List V) (c : List (K × List V)) (hinv : CapInv cs mu mb c) :
    CapInv cs mu mb (capRun key cs mu mb items c).2 ∧
    (∀ p ∈ (capRun key cs mu mb items c).1,
      ∀ n, cs = some n → p.2.length ≤ n) := by
  induction items generalizing c with
  | nil => exact ⟨hinv, by simp [capRun]⟩
  | cons x xs ih =>
    obtain ⟨hstepinv, hstepem⟩ := @capStep_bounds K V _ key cs mu mb hcs hmu hmb c x hinv
    obtain ⟨hrinv, hrem⟩ := ih (capStep key cs mu mb c x).2 hstepinv
    refine ⟨hrinv, ?_⟩
    intro p hp
    simp only [capRun, List.mem_append] at hp
    rcases hp with hp | hp
    · exact (hstepem p hp).1
    · exact hrem p hp

theorem capInv_nil {cs mu mb : Option ℕ}
    (hmu : check_optional_positive mu = true) :
    CapInv cs mu mb ([] : List (K × List V)) := by
  refine ⟨by simp, by simp, by simp, ?_⟩
  intro m hm
  simpa [nUnprocessed] using check_optional_positive_some hmu hm

end StepBounds

/-! ## C7: the bounds of `chunk_and_partition` are respected -/

/-- C7: for every valid bound setting and at every point during the run —
after any prefix of the input — every open bucket is strictly below
`chunk_size` (a bucket reaching exactly `chunk_size` was emitted within its
step), the number of open buckets never exceeds `max_buckets`, and the
buffered total is strictly below `max_unprocessed`; every emitted bucket has
at most `chunk_size` items; and every bucket emitted by a step either is an
exactly-full chunk or is at least as large as every bucket left open after
that step (the largest bucket is the one evicted). -/
theorem chunk_and_partition_bounds {K V : Type} [DecidableEq K]
    (items : List V) (key : V → K) (cs mu mb : Option ℕ)
    (h1 : check_optional_positive cs = true)
    (h2 : check_optional_positive mu = true)
    (h3 : check_optional_positive mb = true) :
    (∀ pre post : List V, items = pre ++ post →
      (∀ n, cs = some n → ∀ p ∈ capCache key cs mu mb pre, p.2.length < n) ∧
      (∀ b, mb = some b → (capCache key cs mu mb pre).length ≤ b) ∧
      (∀ m, mu = some m → nUnprocessed (capCache key cs mu mb pre) < m)) ∧
    (∀ n, cs = some n →
      ∀ p ∈ (capRun key cs mu mb items []).1, p.2.length ≤ n) ∧
    (∀ (pre : List V) (x : V) (post : List V), items = pre ++ x :: post →
      ∀ p ∈ (capStep key cs mu mb (capCache key cs mu mb pre) x).1,
        (∀ n, cs = some n → p.2.length ≤ n) ∧
        (cs = some p.2.length ∨
          ∀ q ∈ (capStep key cs mu mb (capCache key cs mu mb pre) x).2,
            q.2.length ≤ p.2.length)) := by
  have hinv0 : CapInv cs mu mb ([] : List (K × List V)) := capInv_nil h2
  refine ⟨?_, ?_, ?_⟩
  · intro pre post _
    obtain ⟨⟨_, hlt, hcnt, hmass⟩, _⟩ :=
      @capRun_bounds K V _ key cs mu mb h1 h2 h3 pre [] hinv0
    exact ⟨fun n hn p hp => hlt n hn p hp, hcnt, hmass⟩
  · intro n hn p hp
    exact (@capRun_bounds K V _ key cs mu mb h1 h2 h3 items [] hinv0).2 p hp n hn
  · intro pre x post _
    obtain ⟨hcinv, _⟩ := @capRun_bounds K V _ key cs mu mb h1 h2 h3 pre [] hinv0
    exact (capStep_bounds h1 h2 h3 x hcinv).2

/-- Witness for `chunk_and_partition_bounds` at a concrete run: five
naturals keyed by residue mod 3 with `chunk_size = 2`,
`max_unprocessed = 3`, `max_buckets = 2`. -/
theorem chunk_and_partition_bounds_witness :
    (∀ pre post : List ℕ, [1, 2, 3, 4, 5] = pre ++ post →
      (∀ n, (some 2 : Option ℕ) = some n →
        ∀ p ∈ capCache (fun i => i % 3) (some 2) (some 3) (some 2) pre,
          p.2.length < n) ∧
      (∀ b, (some 2 : Option ℕ) = some b →
        (capCache (fun i => i % 3) (some 2) (some 3) (some 2) pre).length ≤ b) ∧
      (∀ m, (some 3 : Option ℕ) = some m →
        nUnprocessed (capCache (fun i => i % 3) (some 2) (some 3) (some 2) pre) < m)) ∧
    (∀ n, (some 2 : Option ℕ) = some n →
      ∀ p ∈ (capRun (fun i => i % 3) (some 2) (some 3) (some 2) [1, 2, 3, 4, 5] []).1,
        p.2.length ≤ n) ∧
    (∀ (pre : List ℕ) (x : ℕ) (post : List ℕ), [1, 2, 3, 4, 5] = pre ++ x :: post →
      ∀ p ∈ (capStep (fun i => i % 3) (some 2) (some 3) (some 2)
          (capCache (fun i => i % 3) (some 2) (some 3) (some 2) pre) x).1,
        (∀ n, (some 2 : Option ℕ) = some n → p.2.length ≤ n) ∧
        ((some 2 : Option ℕ) = some p.2.length ∨
          ∀ q ∈ (capStep (fun i => i % 3) (some 2) (some 3) (some 2)
              (capCache (fun i => i % 3) (some 2) (some 3) (some 2) pre) x).2,
            q.2.length ≤ p.2.length)) :=
  chunk_and_partition_bounds [1, 2, 3, 4, 5] (fun i => i % 3)
    (some 2) (some 3) (some 2) rfl rfl rfl

/-! ## Calendar lemmas for `parse_duration` -/

theorem daysInYear_pos (y : ℕ) : 0 < daysInYear y := by
  unfold daysInYear
  split <;> omega

theorem daysInYear_ge (y : ℕ) : 365 ≤ daysInYear y := by
  unfold daysInYear
  split <;> omega

theorem daysBeforeYear_succ (y : ℕ) (hy : 1 ≤ y) :
    daysBeforeYear (y + 1) = daysBeforeYear y + daysInYear y := by
  unfold daysBeforeYear daysInYear
  by_cases hL : isLeapYear y
  · rw [if_pos hL]
    unfold isLeapYear at hL
    omega
  · rw [if_neg hL]
    unfold isLeapYear at hL
    push_neg at hL
    omega

theorem daysBeforeYear_mono : Monotone daysBeforeYear := by
  apply monotone_nat_of_le_succ
  intro y
  rcases Nat.eq_zero_or_pos y with rfl | hy
  · simp [daysBeforeYear]
  · rw [daysBeforeYear_succ y hy]
    omega

theorem monthLengths_sum (y : ℕ) : (monthLengths y).sum = daysInYear y := by
  unfold monthLengths daysInYear
  by_cases hL : isLeapYear y <;> simp [hL]

theorem monthLengths_length (y : ℕ) : (monthLengths y).length = 12 := rfl

theorem dVal_dChar (n : ℕ) : dVal (dChar n) = n % 10 := by
  have h : n % 10 < 10 := Nat.mod_lt _ (by norm_num)
  unfold dChar
  generalize n % 10 = k at h ⊢
  interval_cases k <;> rfl

theorem isDigit_dChar (n : ℕ) : (dChar n).isDigit = true := by
  have h : n % 10 < 10 := Nat.mod_lt _ (by norm_num)
  unfold dChar
  generalize n % 10 = k at h ⊢
  interval_cases k <;> rfl

theorem pad2_val {n : ℕ} (h : n < 100) :
    dVal (dChar (n / 10)) * 10 + dVal (dChar n) = n := by
  rw [dVal_dChar, dVal_dChar]
  omega

theorem pad4_val {n : ℕ} (h : n < 10000) :
    ((dVal (dChar (n / 1000)) * 10 + dVal (dChar (n / 100))) * 10
        + dVal (dChar (n / 10))) * 10 + dVal (dChar n) = n := by
  rw [dVal_dChar, dVal_dChar, dVal_dChar, dVal_dChar]
  omega

theorem monthFrom_correct (lens : List ℕ) (m r : ℕ) (h : r < lens.sum) :
    m ≤ (monthFrom lens m r).1 ∧
    (monthFrom lens m r).1 - m < lens.length ∧
    (lens.take ((monthFrom lens m r).1 - m)).sum + (monthFrom lens m r).2 = r ∧
    (monthFrom lens m r).2 < lens.getD ((monthFrom lens m r).1 - m) 0 := by
  induction lens generalizing m r with
  | nil => simp at h
  | cons len rest ih =>
    simp only [monthFrom]
    by_cases hr : r < len
    · rw [if_pos hr]
      refine ⟨Nat.le_refl _, ?_, ?_, ?_⟩
      · simp
      · simp
      · simpa using hr
    · rw [if_neg hr]
      have hsum : r - len < rest.sum := by
        simp only [List.sum_cons] at h
        omega
      obtain ⟨ih1, ih2, ih3, ih4⟩ := ih (m + 1) (r - len) hsum
      have hk : (monthFrom rest (m + 1) (r - len)).1 - m
          = ((monthFrom rest (m + 1) (r - len)).1 - (m + 1)) + 1 := by omega
      refine ⟨by omega, ?_, ?_, ?_⟩
      · simp only [List.length_cons]
        omega
      · rw [hk, List.take_succ_cons, List.sum_cons]
        omega
      · rw [hk, List.getD_cons_succ]
        exact ih4

theorem yearFrom_correct (fuel : ℕ) : ∀ y z, 1 ≤ y → z ≤ fuel →
    1 ≤ (yearFrom fuel y z).1 ∧
    (yearFrom fuel y z).2 < daysInYear (yearFrom fuel y z).1 ∧
    daysBeforeYear (yearFrom fuel y z).1 + (yearFrom fuel y z).2
      = daysBeforeYear y + z := by
  induction fuel with
  | zero =>
    intro y z hy hz
    have hz0 : z = 0 := by omega
    subst hz0
    simp only [yearFrom]
    exact ⟨hy, daysInYear_pos y, by simp⟩
  | succ fuel ih =>
    intro y z hy hz
    simp only [yearFrom]
    by_cases hzy : z < daysInYear y
    · rw [if_pos hzy]
      exact ⟨hy, hzy, rfl⟩
    · rw [if_neg hzy]
      have hd := daysInYear_pos y
      have hrec := ih (y + 1) (z - daysInYear y) (by omega) (by omega)
      obtain ⟨r1, r2, r3⟩ := hrec
      refine ⟨by omega, r2, ?_⟩
      rw [r3, daysBeforeYear_succ y hy]
      omega

theorem daysBeforeYear_one : daysBeforeYear 1 = 0 := rfl

theorem fromDayNumber_correct (z : ℕ) :
    1 ≤ (fromDayNumber z).1 ∧
    1 ≤ (fromDayNumber z).2.1 ∧ (fromDayNumber z).2.1 ≤ 12 ∧
    1 ≤ (fromDayNumber z).2.2 ∧
    (fromDayNumber z).2.2 ≤ daysInMonth (fromDayNumber z).1 (fromDayNumber z).2.1 ∧
    toDayNumber (fromDayNumber z).1 (fromDayNumber z).2.1 (fromDayNumber z).2.2 = z := by
  obtain ⟨y1, ydoy, ysum⟩ := yearFrom_correct (z + 1) 1 z (Nat.le_refl 1) (by omega)
  have hdoy : (yearFrom (z + 1) 1 z).2 < (monthLengths (yearFrom (z + 1) 1 z).1).sum := by
    rw [monthLengths_sum]
    exact ydoy
  obtain ⟨m1, m2, m3, m4⟩ :=
    monthFrom_correct (monthLengths (yearFrom (z + 1) 1 z).1) 1
      (yearFrom (z + 1) 1 z).2 hdoy
  simp only [fromDayNumber]
  rw [monthLengths_length] at m2
  refine ⟨y1, by omega, by omega, by omega, ?_, ?_⟩
  · unfold daysInMonth
    omega
  · unfold toDayNumber daysBeforeMonth
    rw [daysBeforeYear_one] at ysum
    omega

theorem daysBeforeMonth_day_lt {y m d : ℕ} (hm1 : 1 ≤ m) (hm2 : m ≤ 12)
    (hd1 : 1 ≤ d) (hd2 : d ≤ daysInMonth y m) :
    daysBeforeMonth y m + (d - 1) < daysInYear y := by
  have hlen : m - 1 < (monthLengths y).length := by
    rw [monthLengths_length]
    omega
  have h1 : ((monthLengths y).take ((m - 1) + 1)).sum
      = ((monthLengths y).take (m - 1)).sum + (monthLengths y)[m - 1] :=
    List.sum_take_succ _ _ hlen
  have h2 : ((monthLengths y).take ((m - 1) + 1)).sum
      + ((monthLengths y).drop ((m - 1) + 1)).sum = (monthLengths y).sum :=
    List.sum_take_add_sum_drop _ _
  rw [monthLengths_sum] at h2
  unfold daysInMonth at hd2
  rw [List.getD_eq_getElem _ _ hlen] at hd2
  unfold daysBeforeMonth
  omega

theorem toDayNumber_lt_10000 {y m d : ℕ} (hy1 : 1 ≤ y) (hy2 : y ≤ 9999)
    (hm1 : 1 ≤ m) (hm2 : m ≤ 12) (hd1 : 1 ≤ d) (hd2 : d ≤ daysInMonth y m) :
    toDayNumber y m d < daysBeforeYear 10000 := by
  have h1 := daysBeforeMonth_day_lt hm1 hm2 hd1 hd2
  have h2 := daysBeforeYear_succ y hy1
  have h3 : daysBeforeYear (y + 1) ≤ daysBeforeYear 10000 :=
    daysBeforeYear_mono (by omega)
  unfold toDayNumber
  omega

theorem fromDayNumber_year_le {z : ℕ} (hz : z < daysBeforeYear 10000) :
    (fromDayNumber z).1 ≤ 9999 := by
  by_contra hy
  push_neg at hy
  have hmono := daysBeforeYear_mono (show 10000 ≤ (fromDayNumber z).1 by omega)
  obtain ⟨_, _, _, _, _, htd⟩ := fromDayNumber_correct z
  unfold toDayNumber at htd
  omega

theorem dtHours_lt_max {t : PyDateTime} (h : validDT t) : dtHours t < maxPyHours := by
  obtain ⟨h1, h2, h3, h4, h5, h6, h7, _, _⟩ := h
  have := toDayNumber_lt_10000 h1 h2 h3 h4 h5 h6
  unfold dtHours maxPyHours
  omega

theorem dtAtHours_hours (t : PyDateTime) (n : ℕ) : dtHours (dtAtHours t n) = n := by
  obtain ⟨_, _, _, _, _, htd⟩ := fromDayNumber_correct (n / 24)
  unfold dtAtHours dtHours
  dsimp only
  rw [htd]
  omega

theorem dtAtHours_valid (t : PyDateTime) (n : ℕ) (hn : n < maxPyHours)
    (hmi : t.minute < 60) (hs : t.second < 60) : validDT (dtAtHours t n) := by
  obtain ⟨h1, h2, h3, h4, h5, _⟩ := fromDayNumber_correct (n / 24)
  have hz : n / 24 < daysBeforeYear 10000 := by
    unfold maxPyHours at hn
    omega
  have hy9999 := fromDayNumber_year_le hz
  unfold dtAtHours validDT
  exact ⟨h1, hy9999, h2, h3, h4, h5, Nat.mod_lt _ (by norm_num), hmi, hs⟩

theorem parse_db_hour_valid {s : String} {t : PyDateTime}
    (h : parse_db_hour s = some t) : validDT t := by
  unfold parse_db_hour parseDT at h
  split at h
  · split at h
    · dsimp only at h
      split at h
      next hval =>
        injection h with h'
        subst h'
        exact hval
      next => cases h
    · cases h
  · cases h

theorem daysInMonth_le_31 (y m : ℕ) : daysInMonth y m ≤ 31 := by
  unfold daysInMonth
  by_cases hi : m - 1 < (monthLengths y).length
  · rw [monthLengths_length] at hi
    unfold monthLengths
    by_cases hL : isLeapYear y <;> simp only [if_pos, if_neg, hL] <;>
      interval_cases h : (m - 1) <;> simp
  · rw [List.getD_eq_default _ _ (by omega : (monthLengths y).length ≤ m - 1)]
    omega

theorem parseDT_format (t : PyDateTime) (hval : validDT t) :
    parse_db_hour (datetime_as_mysql t) = some t := by
  obtain ⟨hy1, hy2, hm1, hm2, hd1, hd2, hhr, hmi, hsec⟩ := hval
  have hdim := daysInMonth_le_31 t.year t.month
  obtain ⟨y, m, d, hr, mi, sec⟩ := t
  simp only at hy1 hy2 hm1 hm2 hd1 hd2 hhr hmi hsec hdim
  have hy4 := pad4_val (show y < 10000 by omega)
  have hmv := pad2_val (show m < 100 by omega)
  have hdv := pad2_val (show d < 100 by omega)
  have hhv := pad2_val (show hr < 100 by omega)
  have hmiv := pad2_val (show mi < 100 by omega)
  have hsv := pad2_val (show sec < 100 by omega)
  have hdata : ∀ l : List Char, (String.mk l).data = l := fun l => rfl
  unfold parse_db_hour datetime_as_mysql pad4 pad2
  rw [hdata]
  simp only [List.cons_append, List.nil_append]
  dsimp only [parseDT]
  rw [if_pos (by simp [isDigit_dChar] :
    (dChar (y / 1000)).isDigit = true ∧ (dChar (y / 100)).isDigit = true ∧
    (dChar (y / 10)).isDigit = true ∧ (dChar y).isDigit = true ∧
    (dChar (m / 10)).isDigit = true ∧ (dChar m).isDigit = true ∧
    (dChar (d / 10)).isDigit = true ∧ (dChar d).isDigit = true ∧
    (dChar (hr / 10)).isDigit = true ∧ (dChar hr).isDigit = true ∧
    (dChar (mi / 10)).isDigit = true ∧ (dChar mi).isDigit = true ∧
    (dChar (sec / 10)).isDigit = true ∧ (dChar sec).isDigit = true ∧
    '-' = '-' ∧ '-' = '-' ∧ ' ' = ' ' ∧ ':' = ':' ∧ ':' = ':')]
  rw [hy4, hmv, hdv, hhv, hmiv, hsv]
  rw [if_pos (show validDT ⟨y, m, d, hr, mi, sec⟩ from
    ⟨hy1, hy2, hm1, hm2, hd1, hd2, hhr, hmi, hsec⟩)]

theorem duration_match_pos {l ds : List Char} {u : Option Char}
    (h : duration_match l = some (ds, u)) : 0 < unitMult u := by
  unfold duration_match at h
  dsimp only at h
  split_ifs at h with h1 h2 h3
  · simp only [Option.some.injEq, Prod.mk.injEq] at h
    rw [← h.2]
    simp [unitMult]
  · simp only [Option.some.injEq, Prod.mk.injEq] at h
    rw [← h.2]
    rcases h3 with h3 | h3 | h3 | h3 <;> rw [h3] <;> simp [unitMult]

/-! ## C5: `parse_duration` produces a closed interval of the requested length -/

/-- C5: for every duration string matching the grammar (positive integer and
unit in the empty/h/d/w/m table with multipliers 1/1/24/168/720) and every
parsable anchor end hour (with the start not falling outside `datetime`'s
year range), `parse_duration` returns the hour instant
`end − (duration_hours − 1)`: the closed interval `[start, end]` contains
exactly `duration_hours` hour instants.  In particular `"1h"` gives
`start = end` and `"1d"` a 24-instant interval. -/
theorem parse_duration_closed_interval
    (dur anchor : String) (digits : List Char) (unit : Option Char)
    (t : PyDateTime)
    (hdur : duration_match dur.data = some (digits, unit))
    (hv : 0 < natOfDigits digits)
    (ht : parse_db_hour anchor = some t)
    (hlow : natOfDigits digits * unitMult unit ≤ dtHours t + 1) :
    ∃ s, parse_duration dur anchor = some s ∧
      hoursOfStr s = some (dtHours t + 1 - natOfDigits digits * unitMult unit) ∧
      (dtHours t - (dtHours t + 1 - natOfDigits digits * unitMult unit)) + 1
        = natOfDigits digits * unitMult unit := by
  have hmult := duration_match_pos hdur
  have hvalid := parse_db_hour_valid ht
  have hvm : 0 < natOfDigits digits * unitMult unit := Nat.mul_pos hv hmult
  have hmax := dtHours_lt_max hvalid
  have hcast : ((natOfDigits digits * unitMult unit : ℕ) : ℤ)
      = (natOfDigits digits : ℤ) * (unitMult unit : ℤ) := by push_cast; ring
  unfold parse_duration
  rw [hdur]
  dsimp only
  rw [ht]
  dsimp only
  have hcond : (0 : ℤ) ≤ (dtHours t : ℤ)
        - ((natOfDigits digits : ℤ) * (unitMult unit : ℤ) - 1) ∧
      (dtHours t : ℤ) - ((natOfDigits digits : ℤ) * (unitMult unit : ℤ) - 1)
        < (maxPyHours : ℤ) := by
    rw [← hcast]
    constructor <;> omega
  rw [if_pos hcond]
  have hnt : ((dtHours t : ℤ)
        - ((natOfDigits digits : ℤ) * (unitMult unit : ℤ) - 1)).toNat
      = dtHours t + 1 - natOfDigits digits * unitMult unit := by
    rw [← hcast]
    omega
  rw [hnt]
  refine ⟨_, rfl, ?_, by omega⟩
  have hnlt : dtHours t + 1 - natOfDigits digits * unitMult unit < maxPyHours := by
    omega
  have hval2 := dtAtHours_valid t _ hnlt
    hvalid.2.2.2.2.2.2.2.1 hvalid.2.2.2.2.2.2.2.2
  unfold hoursOfStr
  rw [parseDT_format _ hval2]
  simp [dtAtHours_hours]

/-- Witness for `parse_duration_closed_interval`: `"1d"` anchored at
`2020-01-10 05:00:00` spans exactly 24 hour instants. -/
theorem parse_duration_closed_interval_witness :
    ∃ s, parse_duration "1d" "2020-01-10 05:00:00" = some s ∧
      hoursOfStr s = some (dtHours ⟨2020, 1, 10, 5, 0, 0⟩ + 1
        - natOfDigits ['1'] * unitMult (some 'd')) ∧
      (dtHours ⟨2020, 1, 10, 5, 0, 0⟩ - (dtHours ⟨2020, 1, 10, 5, 0, 0⟩ + 1
        - natOfDigits ['1'] * unitMult (some 'd'))) + 1
        = natOfDigits ['1'] * unitMult (some 'd') :=
  parse_duration_closed_interval "1d" "2020-01-10 05:00:00" ['1'] (some 'd')
    ⟨2020, 1, 10, 5, 0, 0⟩ (by decide) (by decide) (by decide) (by decide)
